import Mathlib

/-!
# Verification of the FastScape RB+GPU landscape-evolution pipeline

A shallow embedding of the per-step pipeline of `fastscape_RB+GPU.cpp`
(class `FastScape_RBGPU`): ComputeReceivers, ComputeDonors, GenerateOrder,
ComputeFlowAcc, AddUplift, Erode, and the step driver `run`.

Cells are flat integer indices `c = y*W + x` (row-major), as in the source.
Arrays are embedded as total functions out of `ℤ`, updated pointwise;
`double` values are embedded as exact rationals, with the source's decimal
literal for `SQRT2`.  The receiver array stores `Option (Fin 8)`:
`none` models the sentinel `NO_FLOW = -1`, `some d` models direction `d`.
`std::pow(·, meq)` (a real exponentiation on doubles, `meq = 0.8`) is kept
abstract as an oracle parameter `powm`; every other arithmetic operation of
the source is exact on rationals (`neq = 2`, so the remaining `pow` calls are
squaring and the identity).  Unbounded `while` loops (the level loop of
`GenerateOrder`, the Newton iteration of `Erode`) are embedded with explicit
fuel; `GenerateOrder` returns `none` if its fuel runs out, which the
development proves cannot happen on the states the program reaches.
-/

namespace FastScape

/-- `keq = 2e-6`. -/
def keq : ℚ := 2 / 1000000

/-- `neq = 2` (the stream-power slope exponent; the source calls
`std::pow(x, neq)` and `std::pow(x, neq-1)`, i.e. squaring and identity). -/
def neq : ℚ := 2

/-- `ueq = 2e-3`. -/
def ueq : ℚ := 2 / 1000

/-- `dt = 1000`. -/
def dt : ℚ := 1000

/-- `tol = 1e-3`. -/
def tol : ℚ := 1 / 1000

/-- `cell_area = 40000`. -/
def cell_area : ℚ := 40000

/-- The source's `SQRT2` double literal
`1.414213562373095048801688724209698078569671875376948`, read exactly. -/
def SQRT2 : ℚ :=
  1414213562373095048801688724209698078569671875376948 / 10 ^ 51

/-- `dr[8] = {1, SQRT2, 1, SQRT2, 1, SQRT2, 1, SQRT2}`. -/
def dr (n : Fin 8) : ℚ := if n.val % 2 = 0 then 1 else SQRT2

/-- `nshift{-1, -W-1, -W, -W+1, 1, W+1, W, W-1}`: offset from a focal cell's
flat index to its eight neighbours. -/
def nshift (W : ℕ) (n : Fin 8) : ℤ :=
  match n with
  | 0 => -1
  | 1 => -(W : ℤ) - 1
  | 2 => -(W : ℤ)
  | 3 => -(W : ℤ) + 1
  | 4 => 1
  | 5 => (W : ℤ) + 1
  | 6 => (W : ℤ)
  | 7 => (W : ℤ) - 1

/-- The flat indices of the cells visited by
`for(y=y0; y<y1; y++) for(x=x0; x<x1; x++)`, in loop order. -/
def cellsRect (W : ℕ) (y0 y1 x0 x1 : ℕ) : List ℤ :=
  (List.range' y0 (y1 - y0)).flatMap fun y =>
    (List.range' x0 (x1 - x0)).map fun x => ((y * W + x : ℕ) : ℤ)

/-- All cells of the `W × H` grid. -/
def gridCells (W H : ℕ) : List ℤ := cellsRect W 0 H 0 W

/-- `(h[c] - h[c+nshift[n]]) / dr[n]`: slope from cell `c` to neighbour `n`. -/
def slope (W : ℕ) (h : ℤ → ℚ) (c : ℤ) (n : Fin 8) : ℚ :=
  (h c - h (c + nshift W n)) / dr n

/-- One step of the steepest-descent scan of `ComputeReceivers`:
`if(slope>max_slope){ max_slope=slope; max_n=n; }`. -/
def recScanStep (W : ℕ) (h : ℤ → ℚ) (c : ℤ) (acc : ℚ × Option (Fin 8))
    (n : Fin 8) : ℚ × Option (Fin 8) :=
  if acc.1 < slope W h c n then (slope W h c n, some n) else acc

/-- The inner loop of `ComputeReceivers` for one focal cell: scan the eight
neighbours starting from `max_slope = 0`, `max_n = NO_FLOW`. -/
def recSweep (W : ℕ) (h : ℤ → ℚ) (c : ℤ) : Option (Fin 8) :=
  ((List.finRange 8).foldl (recScanStep W h c) (0, none)).2

/-- `ComputeReceivers`: recompute `rec[c]` for every cell with
`2 ≤ y < H-2`, `2 ≤ x < W-2`; all other entries keep their previous value. -/
def computeReceivers (W H : ℕ) (h : ℤ → ℚ) (rec0 : ℤ → Option (Fin 8)) :
    ℤ → Option (Fin 8) :=
  (cellsRect W 2 (H - 2) 2 (W - 2)).foldl
    (fun r c => Function.update r c (recSweep W h c)) rec0

/-- The donor test of `ComputeDonors` for focal cell `c` and scan direction
`ni`: the neighbour `n = c + nshift[ni]` qualifies when
`rec[n] != NO_FLOW && n + nshift[rec[n]] == c`. -/
def donorFilter (W : ℕ) (recv : ℤ → Option (Fin 8)) (c : ℤ) (ni : Fin 8) :
    Option ℤ :=
  let n := c + nshift W ni
  match recv n with
  | some d => if n + nshift W d = c then some n else none
  | none => none

/-- The donors of cell `c`, in neighbour-scan order. -/
def donorList (W : ℕ) (recv : ℤ → Option (Fin 8)) (c : ℤ) : List ℤ :=
  (List.finRange 8).filterMap (donorFilter W recv c)

/-- One iteration of the neighbour scan of `ComputeDonors`: append a
qualifying neighbour at `donor[8*c + ndon[c]]` and increment `ndon[c]`. -/
def donorScanStep (W : ℕ) (recv : ℤ → Option (Fin 8)) (c : ℤ)
    (st : (ℤ → ℕ) × (ℤ → ℤ)) (ni : Fin 8) : (ℤ → ℕ) × (ℤ → ℤ) :=
  let n := c + nshift W ni
  match recv n with
  | some d =>
    if n + nshift W d = c then
      (Function.update st.1 c (st.1 c + 1),
       Function.update st.2 (8 * c + st.1 c) n)
    else st
  | none => st

/-- The body of `ComputeDonors` for one focal cell `c`: reset `ndon[c]` to 0,
then scan the eight neighbours. -/
def donorScan (W : ℕ) (recv : ℤ → Option (Fin 8)) (c : ℤ)
    (st : (ℤ → ℕ) × (ℤ → ℤ)) : (ℤ → ℕ) × (ℤ → ℤ) :=
  (List.finRange 8).foldl (donorScanStep W recv c)
    (Function.update st.1 c 0, st.2)

/-- `ComputeDonors`: run `donorScan` over every cell with
`1 ≤ y < H-1`, `1 ≤ x < W-1`. -/
def computeDonors (W H : ℕ) (recv : ℤ → Option (Fin 8))
    (nd0 : ℤ → ℕ) (dn0 : ℤ → ℤ) : (ℤ → ℕ) × (ℤ → ℤ) :=
  (cellsRect W 1 (H - 1) 1 (W - 1)).foldl
    (fun st c => donorScan W recv c st) (nd0, dn0)

/-- The cells appended to the stack while one level is processed:
`for k in [0, ndon[c]): donor[8*c+k]`, concatenated over the level. -/
def nextLevel (ndon : ℤ → ℕ) (donor : ℤ → ℤ) (lvl : List ℤ) : List ℤ :=
  lvl.flatMap fun c => (List.range (ndon c)).map fun k : ℕ => donor (8 * c + (k : ℤ))

/-- The `while(level_bottom < level_top)` loop of `GenerateOrder`, with fuel.
`cur` is the most recently pushed level segment; each iteration pushes its
donors and records the new stack length, and the loop continues exactly when
`cur` was non-empty.  `none` models fuel exhaustion. -/
def orderLoop (ndon : ℤ → ℕ) (donor : ℤ → ℤ) :
    ℕ → List ℤ → List ℤ → List ℕ → Option (List ℤ × List ℕ)
  | 0, _, _, _ => none
  | fuel + 1, cur, stk, lvls =>
    let nxt := nextLevel ndon donor cur
    let stk' := stk ++ nxt
    let lvls' := lvls ++ [stk'.length]
    if cur.isEmpty then some (stk', lvls') else orderLoop ndon donor fuel nxt stk' lvls'

/-- The seed level of `GenerateOrder`: cells with `1 ≤ y < H-1`,
`1 ≤ x < W-1` and `rec[c] == NO_FLOW`, in loop order. -/
def seedList (W H : ℕ) (recv : ℤ → Option (Fin 8)) : List ℤ :=
  (cellsRect W 1 (H - 1) 1 (W - 1)).filter fun c => (recv c).isNone

/-- `GenerateOrder`: seed the stack, run the level loop, and drop the
duplicated final boundary (`nlevel--`).  The fuel `W*H + 2` is enough for
any acyclic receiver graph on the grid. -/
def generateOrder (W H : ℕ) (recv : ℤ → Option (Fin 8))
    (ndon : ℤ → ℕ) (donor : ℤ → ℤ) : Option (List ℤ × List ℕ) :=
  let seeds := seedList W H recv
  (orderLoop ndon donor (W * H + 2) seeds seeds [0, seeds.length]).map
    fun p => (p.1, p.2.dropLast)

/-- `stack[levels[li] .. levels[li+1])`: the cells of level `li`. -/
def segment (stk : List ℤ) (lvls : List ℕ) (li : ℕ) : List ℤ :=
  (stk.drop (lvls.getD li 0)).take (lvls.getD (li + 1) 0 - lvls.getD li 0)

/-- One flow-accumulation push:
`if(rec[c]!=NO_FLOW){ accum[c+nshift[rec[c]]] += accum[c]; }`. -/
def accPush (W : ℕ) (recv : ℤ → Option (Fin 8)) (a : ℤ → ℚ) (c : ℤ) : ℤ → ℚ :=
  match recv c with
  | none => a
  | some d =>
    Function.update a (c + nshift W d) (a (c + nshift W d) + a c)

/-- `ComputeFlowAcc`: initialise every cell's accumulation to `cell_area`,
then walk levels `li = nlevel-2, …, 1` pushing each cell's accumulation to
its receiver. -/
def computeFlowAcc (W : ℕ) (recv : ℤ → Option (Fin 8))
    (stk : List ℤ) (lvls : List ℕ) : ℤ → ℚ :=
  ((List.range' 1 (lvls.length - 2)).reverse).foldl
    (fun a li => (segment stk lvls li).foldl (accPush W recv) a)
    (fun _ => cell_area)

/-- `AddUplift`: `h[c] += ueq*dt` for every cell with `2 ≤ y < H-2`,
`2 ≤ x < W-2`. -/
def addUplift (W H : ℕ) (h : ℤ → ℚ) : ℤ → ℚ :=
  (cellsRect W 2 (H - 2) 2 (W - 2)).foldl
    (fun h c => Function.update h c (h c + ueq * dt)) h

/-- One Newton–Raphson update of `Erode` (`neq = 2`, so
`pow(hnew-hn, neq) = (hnew-hn)^2` and `pow(hnew-hn, neq-1) = hnew-hn`):
`hnew -= (hnew-h0+fact*(hnew-hn)^2) / (1 + fact*2*(hnew-hn))`. -/
def newtonStep (fact h0 hn x : ℚ) : ℚ :=
  x - (x - h0 + fact * (x - hn) ^ 2) / (1 + fact * neq * (x - hn))

/-- The `while(std::abs(diff)>tol)` Newton iteration of `Erode`, with fuel.
The previous-value variable `hp` always holds the pre-update `hnew`, so
`diff` is the change made by the latest update. -/
def newtonGo (fact h0 hn : ℚ) : ℕ → ℚ → ℚ → ℚ
  | 0, hnew, _ => hnew
  | fuel + 1, hnew, diff =>
    if tol < |diff| then
      newtonGo fact h0 hn fuel (newtonStep fact h0 hn hnew)
        (newtonStep fact h0 hn hnew - hnew)
    else hnew

/-- The full Newton solve of `Erode` for one cell: start at `hnew = h0` with
`diff = 2*tol` (so the first test always passes). -/
def newtonSolve (fact h0 hn : ℚ) (fuel : ℕ) : ℚ :=
  newtonGo fact h0 hn fuel h0 (2 * tol)

/-- The body of `Erode` for one stack cell: skip `NO_FLOW` cells, otherwise
replace `h[c]` by the Newton solution against the receiver's current
elevation.  `powm` models `std::pow(·, meq)`. -/
def erodeCell (W : ℕ) (powm : ℚ → ℚ) (nfuel : ℕ) (recv : ℤ → Option (Fin 8))
    (accum : ℤ → ℚ) (h : ℤ → ℚ) (c : ℤ) : ℤ → ℚ :=
  match recv c with
  | none => h
  | some d =>
    let fact := keq * dt * powm (accum c) / dr d ^ (2 : ℕ)
    Function.update h c (newtonSolve fact (h c) (h (c + nshift W d)) nfuel)

/-- `Erode`: walk levels `li = 0, …, nlevel-2` from the sinks upward,
eroding each non-`NO_FLOW` cell against its receiver. -/
def erode (W : ℕ) (powm : ℚ → ℚ) (nfuel : ℕ) (recv : ℤ → Option (Fin 8))
    (accum : ℤ → ℚ) (stk : List ℤ) (lvls : List ℕ) (h : ℤ → ℚ) : ℤ → ℚ :=
  (List.range (lvls.length - 1)).foldl
    (fun h li => (segment stk lvls li).foldl
      (fun h c => erodeCell W powm nfuel recv accum h c) h) h

/-- The mutable state of `FastScape_RBGPU` (field `recv` models `rec`). -/
structure FState where
  h : ℤ → ℚ
  accum : ℤ → ℚ
  recv : ℤ → Option (Fin 8)
  ndon : ℤ → ℕ
  donor : ℤ → ℤ

/-- One iteration of the step loop of `run`: the six-stage pipeline
Receivers → Donors → Ordering → Accumulation → Uplift → Erosion. -/
def doStep (W H : ℕ) (powm : ℚ → ℚ) (nfuel : ℕ) (s : FState) : FState :=
  let recv1 := computeReceivers W H s.h s.recv
  let nd := computeDonors W H recv1 s.ndon s.donor
  let ord := (generateOrder W H recv1 nd.1 nd.2).getD ([], [])
  let acc1 := computeFlowAcc W recv1 ord.1 ord.2
  let h1 := addUplift W H s.h
  let h2 := erode W powm nfuel recv1 acc1 ord.1 ord.2 h1
  ⟨h2, acc1, recv1, nd.1, nd.2⟩

/-- The values taken by the loop variable of
`for(int step=0; step<=nstep; step++)`. -/
def stepsList (nstep : ℤ) : List ℤ :=
  (List.range (nstep + 1).toNat).map Int.ofNat

/-- The step loop of `run`: execute the pipeline once per value of the loop
variable. -/
def runLoop (W H : ℕ) (powm : ℚ → ℚ) (nfuel : ℕ) (nstep : ℤ) (s : FState) :
    FState :=
  (stepsList nstep).foldl (fun s _ => doStep W H powm nfuel s) s

/-! ## Grid geometry -/

/-- `c` is the flat index of a cell with `y0 ≤ y < y1`, `x0 ≤ x < x1`. -/
def InRect (W : ℕ) (y0 y1 x0 x1 : ℕ) (c : ℤ) : Prop :=
  ∃ y x : ℕ, y0 ≤ y ∧ y < y1 ∧ x0 ≤ x ∧ x < x1 ∧ c = ((y * W + x : ℕ) : ℤ)

theorem mem_cellsRect {W y0 y1 x0 x1 : ℕ} {c : ℤ} :
    c ∈ cellsRect W y0 y1 x0 x1 ↔ InRect W y0 y1 x0 x1 c := by
  simp only [cellsRect, List.mem_flatMap, List.mem_map, List.mem_range']
  constructor
  · rintro ⟨y, ⟨i, hi, rfl⟩, x, ⟨j, hj, rfl⟩, rfl⟩
    exact ⟨y0 + 1 * i, x0 + 1 * j, by omega, by omega, by omega, by omega, rfl⟩
  · rintro ⟨y, x, hy0, hy1, hx0, hx1, rfl⟩
    exact ⟨y, ⟨y - y0, by omega, by omega⟩, x, ⟨x - x0, by omega, by omega⟩, rfl⟩

/-- Flat indices decompose uniquely when the `x` coordinates are below `W`. -/
theorem cell_index_inj {W y x y' x' : ℕ} (hx : x < W) (hx' : x' < W)
    (h : ((y * W + x : ℕ) : ℤ) = ((y' * W + x' : ℕ) : ℤ)) : y = y' ∧ x = x' := by
  have h' : y * W + x = y' * W + x' := by exact_mod_cast h
  have hW : 0 < W := Nat.lt_of_le_of_lt (Nat.zero_le _) hx
  have e1 : (y * W + x) % W = x := by
    rw [Nat.mul_comm, Nat.mul_add_mod]; exact Nat.mod_eq_of_lt hx
  have e2 : (y' * W + x') % W = x' := by
    rw [Nat.mul_comm, Nat.mul_add_mod]; exact Nat.mod_eq_of_lt hx'
  have hx_eq : x = x' := by rw [← e1, h', e2]
  refine ⟨?_, hx_eq⟩
  have : y * W = y' * W := by omega
  exact Nat.eq_of_mul_eq_mul_right hW this

theorem cellsRect_nodup {W y0 y1 x0 x1 : ℕ} (hx1 : x1 ≤ W) :
    (cellsRect W y0 y1 x0 x1).Nodup := by
  unfold cellsRect
  rw [List.nodup_flatMap]
  constructor
  · intro y _
    refine List.Nodup.map_on ?_ (List.nodup_range' _ _)
    intro a ha b hb hab
    have ha' : a < W := by
      rcases List.mem_range'.1 ha with ⟨i, hi, rfl⟩; omega
    have hb' : b < W := by
      rcases List.mem_range'.1 hb with ⟨j, hj, rfl⟩; omega
    exact (cell_index_inj ha' hb' hab).2
  · refine List.Pairwise.imp ?_ (List.nodup_range' _ _)
    intro y y' hne
    simp only [Function.onFun, List.Disjoint, List.mem_map]
    rintro a ⟨x, hx, rfl⟩ ⟨x', hx', hax⟩
    have hxW : x < W := by
      rcases List.mem_range'.1 hx with ⟨i, hi, rfl⟩; omega
    have hxW' : x' < W := by
      rcases List.mem_range'.1 hx' with ⟨j, hj, rfl⟩; omega
    exact hne (cell_index_inj hxW' hxW hax).1.symm

/-! ## Pointwise descriptions of the update folds -/

/-- Folding pointwise updates whose new value does not depend on the array:
the result at `c` is the fresh value if `c` was visited, else the old one. -/
theorem foldl_update_const {α : Type} [DecidableEq ℤ] (f : ℤ → α)
    (l : List ℤ) (g0 : ℤ → α) (c : ℤ) :
    (l.foldl (fun g c' => Function.update g c' (f c')) g0) c =
      if c ∈ l then f c else g0 c := by
  induction l generalizing g0 with
  | nil => simp
  | cons a tl ih =>
    by_cases hc : c ∈ tl
    · simp [ih, hc]
    · by_cases hca : c = a
      · subst hca
        simp [ih, hc, Function.update]
      · simp [ih, hc, hca, Function.update, List.mem_cons]

/-- Folding pointwise updates over a duplicate-free list, where the new value
reads only the focal entry: the result at `c` applies the update to the old
value if `c` was visited. -/
theorem foldl_update_self {α : Type} [DecidableEq ℤ] (f : α → α)
    (l : List ℤ) (hl : l.Nodup) (g0 : ℤ → α) (c : ℤ) :
    (l.foldl (fun g c' => Function.update g c' (f (g c'))) g0) c =
      if c ∈ l then f (g0 c) else g0 c := by
  induction l generalizing g0 with
  | nil => simp
  | cons a tl ih =>
    rcases List.nodup_cons.1 hl with ⟨ha, htl⟩
    by_cases hca : c = a
    · subst hca
      simp only [List.foldl_cons, ih htl, ha, if_neg ha, List.mem_cons]
      simp [Function.update]
    · simp only [List.foldl_cons, ih htl, List.mem_cons]
      by_cases hc : c ∈ tl
      · simp [hc, hca, Function.update, Ne.symm hca]
      · simp [hc, hca, Function.update, Ne.symm hca]

/-! ## Neighbour-offset facts -/

/-- All eight neighbour offsets are distinct once `3 ≤ W`. -/
theorem nshift_injective {W : ℕ} (hW : 3 ≤ W) :
    Function.Injective (nshift W) := by
  intro a b hab
  have hW' : (3 : ℤ) ≤ (W : ℤ) := by exact_mod_cast hW
  fin_cases a <;> fin_cases b <;> simp_all [nshift] <;> omega

/-- Direction `d + 4` (mod 8) is the opposite of direction `d`. -/
theorem nshift_opp (W : ℕ) (d : Fin 8) :
    nshift W (d + 4) = -(nshift W d) := by
  fin_cases d <;> simp [nshift, Fin.add_def] <;> ring

/-- `0 < SQRT2`. -/
theorem SQRT2_pos : 0 < SQRT2 := by norm_num [SQRT2]

/-- Each neighbour distance is positive. -/
theorem dr_pos (n : Fin 8) : 0 < dr n := by
  unfold dr
  split
  · norm_num
  · exact SQRT2_pos

/-! ## The steepest-descent scan -/

/-- Characterisation of the strict-improvement argmax fold: either nothing
beat the initial maximum and the state is unchanged, or the state records the
last improving candidate, which is strictly better than the initial maximum
and than everything before it, and at least as good as everything after. -/
theorem argmax_fold_spec (v : Fin 8 → ℚ) (l : List (Fin 8)) (m : ℚ)
    (r : Option (Fin 8)) :
    (l.foldl (fun acc n => if acc.1 < v n then (v n, some n) else acc) (m, r)
        = (m, r) ∧ ∀ n ∈ l, v n ≤ m) ∨
    (∃ d l₁ l₂, l = l₁ ++ d :: l₂ ∧
      l.foldl (fun acc n => if acc.1 < v n then (v n, some n) else acc) (m, r)
        = (v d, some d) ∧ m < v d ∧
      (∀ e ∈ l₁, v e < v d) ∧ (∀ e ∈ l₂, v e ≤ v d)) := by
  induction l generalizing m r with
  | nil => exact Or.inl ⟨rfl, by simp⟩
  | cons a tl ih =>
    by_cases ha : m < v a
    · simp only [List.foldl_cons, if_pos ha]
      rcases ih (v a) (some a) with ⟨heq, hle⟩ | ⟨d, l₁, l₂, hdec, heq, hlt, h₁, h₂⟩
      · refine Or.inr ⟨a, [], tl, by simp, heq, ha, by simp, ?_⟩
        intro e he; exact hle e he
      · refine Or.inr ⟨d, a :: l₁, l₂, by simp [hdec], heq, lt_trans ha hlt, ?_, h₂⟩
        intro e he
        rcases List.mem_cons.1 he with rfl | he'
        · exact hlt
        · exact h₁ e he'
    · simp only [List.foldl_cons, if_neg ha]
      rcases ih m r with ⟨heq, hle⟩ | ⟨d, l₁, l₂, hdec, heq, hlt, h₁, h₂⟩
      · refine Or.inl ⟨heq, ?_⟩
        intro e he
        rcases List.mem_cons.1 he with rfl | he'
        · exact le_of_not_lt ha
        · exact hle e he'
      · refine Or.inr ⟨d, a :: l₁, l₂, by simp [hdec], heq, hlt, ?_, h₂⟩
        intro e he
        rcases List.mem_cons.1 he with rfl | he'
        · exact lt_of_le_of_lt (le_of_not_lt ha) hlt
        · exact h₁ e he'

/-- In a decomposition `finRange 8 = l₁ ++ d :: l₂`, the elements of `l₁`
are exactly the directions below `d`. -/
theorem finRange_split_mem {d e : Fin 8} {l₁ l₂ : List (Fin 8)}
    (hdec : List.finRange 8 = l₁ ++ d :: l₂) : e ∈ l₁ ↔ e < d := by
  have hpw : List.Pairwise (· < ·) (l₁ ++ d :: l₂) := by
    rw [← hdec]; exact List.pairwise_lt_finRange 8
  rw [List.pairwise_append] at hpw
  rcases hpw with ⟨_, hpw₂, hcross⟩
  constructor
  · intro he; exact hcross e he d (List.mem_cons_self _ _)
  · intro hed
    have he : e ∈ l₁ ++ d :: l₂ := by rw [← hdec]; exact List.mem_finRange e
    rcases List.mem_append.1 he with h | h
    · exact h
    · rcases List.mem_cons.1 h with rfl | h'
      · exact absurd hed (lt_irrefl _)
      · exact absurd ((List.pairwise_cons.1 hpw₂).1 e h') (not_lt_of_gt hed)

/-- `recSweep` returns `NO_FLOW` exactly when no neighbour slope is
strictly positive. -/
theorem recSweep_none_iff {W : ℕ} {h : ℤ → ℚ} {c : ℤ} :
    recSweep W h c = none ↔ ∀ n : Fin 8, slope W h c n ≤ 0 := by
  unfold recSweep
  have hstep : recScanStep W h c =
      fun acc n => if acc.1 < slope W h c n then (slope W h c n, some n) else acc := by
    funext acc n; rfl
  rw [hstep]
  rcases argmax_fold_spec (slope W h c) (List.finRange 8) 0 none with
    ⟨heq, hle⟩ | ⟨d, l₁, l₂, hdec, heq, hlt, _, _⟩
  · rw [heq]
    simpa using fun n => hle n (List.mem_finRange n)
  · rw [heq]
    simp only [reduceCtorEq, false_iff, not_forall, not_le]
    exact ⟨d, hlt⟩

/-- If `recSweep` selects direction `d`, then `d` has strictly positive
slope, maximal slope, and is the first direction attaining that maximum. -/
theorem recSweep_some_spec {W : ℕ} {h : ℤ → ℚ} {c : ℤ} {d : Fin 8}
    (hs : recSweep W h c = some d) :
    0 < slope W h c d ∧ (∀ e, slope W h c e ≤ slope W h c d) ∧
      (∀ e, e < d → slope W h c e < slope W h c d) := by
  unfold recSweep at hs
  have hstep : recScanStep W h c =
      fun acc n => if acc.1 < slope W h c n then (slope W h c n, some n) else acc := by
    funext acc n; rfl
  rw [hstep] at hs
  rcases argmax_fold_spec (slope W h c) (List.finRange 8) 0 none with
    ⟨heq, _⟩ | ⟨d', l₁, l₂, hdec, heq, hlt, h₁, h₂⟩
  · rw [heq] at hs; exact absurd hs (by simp)
  · rw [heq] at hs
    have hd : d' = d := by simpa using hs
    rw [hd] at hdec hlt h₁ h₂
    refine ⟨hlt, ?_, ?_⟩
    · intro e
      have he : e ∈ l₁ ++ d :: l₂ := by rw [← hdec]; exact List.mem_finRange e
      rcases List.mem_append.1 he with h' | h'
      · exact (h₁ e h').le
      · rcases List.mem_cons.1 h' with rfl | h''
        · exact le_rfl
        · exact h₂ e h''
    · intro e hed
      exact h₁ e ((finRange_split_mem hdec).2 hed)

/-- If `recSweep` selects a direction, the selected neighbour is strictly
lower than the focal cell. -/
theorem recSweep_desc {W : ℕ} {h : ℤ → ℚ} {c : ℤ} {d : Fin 8}
    (hs : recSweep W h c = some d) : h (c + nshift W d) < h c := by
  have hpos := (recSweep_some_spec hs).1
  unfold slope at hpos
  have hdr := dr_pos d
  have := (div_pos_iff).1 hpos
  rcases this with ⟨hnum, _⟩ | ⟨_, hden⟩
  · linarith
  · linarith

/-- Pointwise description of `ComputeReceivers`: cells in the scanned
rectangle get their fresh sweep value, all others keep their old one. -/
theorem computeReceivers_eq (W H : ℕ) (h : ℤ → ℚ)
    (rec0 : ℤ → Option (Fin 8)) (c : ℤ) :
    computeReceivers W H h rec0 c =
      if c ∈ cellsRect W 2 (H - 2) 2 (W - 2) then recSweep W h c else rec0 c :=
  foldl_update_const (recSweep W h) _ rec0 c

/-- Cells outside the scanned rectangle keep their previous receiver; in
particular, if the previous receiver array is `NO_FLOW` away from the
interior, so is the new one. -/
theorem computeReceivers_support {W H : ℕ} {h : ℤ → ℚ}
    {rec0 : ℤ → Option (Fin 8)}
    (h0 : ∀ c, ¬ InRect W 2 (H - 2) 2 (W - 2) c → rec0 c = none) :
    ∀ c, computeReceivers W H h rec0 c ≠ none →
      InRect W 2 (H - 2) 2 (W - 2) c := by
  intro c hne
  rw [computeReceivers_eq] at hne
  by_cases hc : c ∈ cellsRect W 2 (H - 2) 2 (W - 2)
  · exact mem_cellsRect.1 hc
  · rw [if_neg hc] at hne
    by_contra hnr
    exact hne (h0 c hnr)

/-! ## Neighbours of frame and interior cells stay on the grid -/

/-- A neighbour of a frame cell (`1 ≤ y < H-1`, `1 ≤ x < W-1`) is a grid
cell. -/
theorem grid_of_frame_nbr {W H : ℕ} {c : ℤ}
    (hc : InRect W 1 (H - 1) 1 (W - 1) c) (d : Fin 8) :
    InRect W 0 H 0 W (c + nshift W d) := by
  obtain ⟨y, x, hy0, hy1, hx0, hx1, rfl⟩ := hc
  have hy' : ((y - 1 : ℕ) : ℤ) = (y : ℤ) - 1 := by omega
  have hx' : ((x - 1 : ℕ) : ℤ) = (x : ℤ) - 1 := by omega
  fin_cases d <;> simp only [nshift]
  · exact ⟨y, x - 1, by omega, by omega, by omega, by omega, by push_cast [hx']; ring⟩
  · exact ⟨y - 1, x - 1, by omega, by omega, by omega, by omega, by push_cast [hx', hy']; ring⟩
  · exact ⟨y - 1, x, by omega, by omega, by omega, by omega, by push_cast [hy']; ring⟩
  · exact ⟨y - 1, x + 1, by omega, by omega, by omega, by omega, by push_cast [hy']; ring⟩
  · exact ⟨y, x + 1, by omega, by omega, by omega, by omega, by push_cast; ring⟩
  · exact ⟨y + 1, x + 1, by omega, by omega, by omega, by omega, by push_cast; ring⟩
  · exact ⟨y + 1, x, by omega, by omega, by omega, by omega, by push_cast; ring⟩
  · exact ⟨y + 1, x - 1, by omega, by omega, by omega, by omega, by push_cast [hx']; ring⟩

/-- A neighbour of an interior cell (`2 ≤ y < H-2`, `2 ≤ x < W-2`) is a
frame cell. -/
theorem frame_of_interior_nbr {W H : ℕ} {c : ℤ}
    (hc : InRect W 2 (H - 2) 2 (W - 2) c) (d : Fin 8) :
    InRect W 1 (H - 1) 1 (W - 1) (c + nshift W d) := by
  obtain ⟨y, x, hy0, hy1, hx0, hx1, rfl⟩ := hc
  have hy' : ((y - 1 : ℕ) : ℤ) = (y : ℤ) - 1 := by omega
  have hx' : ((x - 1 : ℕ) : ℤ) = (x : ℤ) - 1 := by omega
  fin_cases d <;> simp only [nshift]
  · exact ⟨y, x - 1, by omega, by omega, by omega, by omega, by push_cast [hx']; ring⟩
  · exact ⟨y - 1, x - 1, by omega, by omega, by omega, by omega, by push_cast [hx', hy']; ring⟩
  · exact ⟨y - 1, x, by omega, by omega, by omega, by omega, by push_cast [hy']; ring⟩
  · exact ⟨y - 1, x + 1, by omega, by omega, by omega, by omega, by push_cast [hy']; ring⟩
  · exact ⟨y, x + 1, by omega, by omega, by omega, by omega, by push_cast; ring⟩
  · exact ⟨y + 1, x + 1, by omega, by omega, by omega, by omega, by push_cast; ring⟩
  · exact ⟨y + 1, x, by omega, by omega, by omega, by omega, by push_cast; ring⟩
  · exact ⟨y + 1, x - 1, by omega, by omega, by omega, by omega, by push_cast [hx']; ring⟩

/-- Interior cells are frame cells. -/
theorem frame_of_interior {W H : ℕ} {c : ℤ}
    (hc : InRect W 2 (H - 2) 2 (W - 2) c) : InRect W 1 (H - 1) 1 (W - 1) c := by
  obtain ⟨y, x, hy0, hy1, hx0, hx1, rfl⟩ := hc
  exact ⟨y, x, by omega, by omega, by omega, by omega, rfl⟩

/-- Frame cells are grid cells. -/
theorem grid_of_frame {W H : ℕ} {c : ℤ}
    (hc : InRect W 1 (H - 1) 1 (W - 1) c) : InRect W 0 H 0 W c := by
  obtain ⟨y, x, hy0, hy1, hx0, hx1, rfl⟩ := hc
  exact ⟨y, x, by omega, by omega, by omega, by omega, rfl⟩

/-- Every receiver chosen by `ComputeReceivers` is strictly lower than its
donor (provided stale entries are `NO_FLOW`). -/
theorem computeReceivers_desc {W H : ℕ} {h : ℤ → ℚ}
    {rec0 : ℤ → Option (Fin 8)}
    (h0 : ∀ c, ¬ InRect W 2 (H - 2) 2 (W - 2) c → rec0 c = none) :
    ∀ c d, computeReceivers W H h rec0 c = some d →
      h (c + nshift W d) < h c := by
  intro c d hcd
  rw [computeReceivers_eq] at hcd
  by_cases hc : c ∈ cellsRect W 2 (H - 2) 2 (W - 2)
  · rw [if_pos hc] at hcd
    exact recSweep_desc hcd
  · rw [if_neg hc] at hcd
    rw [h0 c (fun hr => hc (mem_cellsRect.2 hr))] at hcd
    exact absurd hcd (by simp)

/-! ## Claim C2 -/

/-- **C2.** After `ComputeReceivers` in any step (so: the stale receiver
array is `NO_FLOW` outside the recomputed interior, and the elevation field
satisfies the step invariants that the two outermost rings are at elevation 0
and that elevations are nonnegative), every frame cell `c`
(`1 ≤ x ≤ W-2`, `1 ≤ y ≤ H-2`) satisfies: `rec[c] = SINK` exactly when no
neighbour of `c` has slope strictly greater than 0, and otherwise `rec[c]`
is the first-encountered (lowest-index) direction attaining the maximum of
`(h[c]-h[n])/dr[n]`; halo entries remain `SINK`. -/
theorem C2_receivers_spec (W H : ℕ) (h : ℤ → ℚ) (rec0 : ℤ → Option (Fin 8))
    (hrec0 : ∀ c, ¬ InRect W 2 (H - 2) 2 (W - 2) c → rec0 c = none)
    (hzero : ∀ c, InRect W 0 H 0 W c → ¬ InRect W 2 (H - 2) 2 (W - 2) c → h c = 0)
    (hnonneg : ∀ c, InRect W 0 H 0 W c → 0 ≤ h c) :
    (∀ c, InRect W 1 (H - 1) 1 (W - 1) c →
      (computeReceivers W H h rec0 c = none ↔ ∀ n : Fin 8, slope W h c n ≤ 0) ∧
      (∀ d, computeReceivers W H h rec0 c = some d →
        0 < slope W h c d ∧ (∀ e, slope W h c e ≤ slope W h c d) ∧
          ∀ e, e < d → slope W h c e < slope W h c d)) ∧
    (∀ c, InRect W 0 H 0 W c → ¬ InRect W 1 (H - 1) 1 (W - 1) c →
      computeReceivers W H h rec0 c = none) := by
  have hhalo : ∀ c, ¬ InRect W 2 (H - 2) 2 (W - 2) c →
      computeReceivers W H h rec0 c = none := by
    intro c hci
    rw [computeReceivers_eq, if_neg (fun hm => hci (mem_cellsRect.1 hm))]
    exact hrec0 c hci
  constructor
  · intro c hcf
    by_cases hci : InRect W 2 (H - 2) 2 (W - 2) c
    · have hval : computeReceivers W H h rec0 c = recSweep W h c := by
        rw [computeReceivers_eq, if_pos (mem_cellsRect.2 hci)]
      constructor
      · rw [hval]; exact recSweep_none_iff
      · intro d hd; rw [hval] at hd; exact recSweep_some_spec hd
    · refine ⟨?_, ?_⟩
      · rw [hhalo c hci]
        simp only [true_iff]
        intro n
        have hc0 : h c = 0 := hzero c (grid_of_frame hcf) hci
        have hn0 : 0 ≤ h (c + nshift W n) :=
          hnonneg _ (grid_of_frame_nbr hcf n)
        unfold slope
        apply div_nonpos_of_nonpos_of_nonneg
        · linarith
        · exact (dr_pos n).le
      · intro d hd
        rw [hhalo c hci] at hd
        exact absurd hd (by simp)
  · intro c _ hcf
    exact hhalo c (fun hci => hcf (frame_of_interior hci))

/-- Witness for C2 at `W = H = 5`, flat zero elevations, fresh receiver
array. -/
theorem C2_receivers_spec_witness :
    (∀ c, InRect 5 1 4 1 4 c →
      (computeReceivers 5 5 (fun _ => 0) (fun _ => none) c = none ↔
        ∀ n : Fin 8, slope 5 (fun _ => 0) c n ≤ 0) ∧
      (∀ d, computeReceivers 5 5 (fun _ => 0) (fun _ => none) c = some d →
        0 < slope 5 (fun _ => 0) c d ∧
          (∀ e, slope 5 (fun _ => 0) c e ≤ slope 5 (fun _ => 0) c d) ∧
          ∀ e, e < d → slope 5 (fun _ => 0) c e < slope 5 (fun _ => 0) c d)) ∧
    (∀ c, InRect 5 0 5 0 5 c → ¬ InRect 5 1 4 1 4 c →
      computeReceivers 5 5 (fun _ => 0) (fun _ => none) c = none) :=
  C2_receivers_spec 5 5 (fun _ => 0) (fun _ => none)
    (fun _ _ => rfl) (fun _ _ _ => rfl) (fun _ _ => le_refl 0)

/-! ## Receiver chains -/

/-- Follow receiver links `k` times; `none` if a `NO_FLOW` cell is hit
first. -/
def recIter (W : ℕ) (recv : ℤ → Option (Fin 8)) : ℕ → ℤ → Option ℤ
  | 0, c => some c
  | k + 1, c =>
    match recv c with
    | none => none
    | some d => recIter W recv k (c + nshift W d)

/-- Receiver chains compose. -/
theorem recIter_add (W : ℕ) (recv : ℤ → Option (Fin 8)) (m n : ℕ) (c : ℤ) :
    recIter W recv (m + n) c = (recIter W recv m c).bind (recIter W recv n) := by
  induction m generalizing c with
  | zero => simp [recIter]
  | succ m ih =>
    have hrw : ∀ j c', recIter W recv (j + 1) c' =
        match recv c' with
        | none => none
        | some d => recIter W recv j (c' + nshift W d) := fun _ _ => rfl
    rw [show m + 1 + n = m + n + 1 by omega]
    cases hc : recv c with
    | none =>
      rw [show recIter W recv (m + n + 1) c = recIter W recv (m + n + 1) c from rfl]
      have e1 : recIter W recv (m + n + 1) c = none := by
        rw [show m + n + 1 = (m + n) + 1 from rfl, hrw, hc]
      have e2 : recIter W recv (m + 1) c = none := by rw [hrw, hc]
      rw [e1, e2, Option.none_bind]
    | some d =>
      have e1 : recIter W recv (m + n + 1) c = recIter W recv (m + n) (c + nshift W d) := by
        rw [show m + n + 1 = (m + n) + 1 from rfl, hrw, hc]
      have e2 : recIter W recv (m + 1) c = recIter W recv m (c + nshift W d) := by
        rw [hrw, hc]
      rw [e1, e2, ih]

/-- One extra chain step, taken at the far end. -/
theorem recIter_succ_back (W : ℕ) (recv : ℤ → Option (Fin 8)) (k : ℕ) (c : ℤ) :
    recIter W recv (k + 1) c =
      match recIter W recv k c with
      | none => none
      | some t =>
        match recv t with
        | none => none
        | some d => some (t + nshift W d) := by
  rw [recIter_add]
  cases recIter W recv k c with
  | none => rfl
  | some t =>
    rw [Option.some_bind]
    cases ht : recv t with
    | none => simp [recIter, ht]
    | some d => simp [recIter, ht]

/-- Elevation strictly decreases along a nonempty receiver chain. -/
theorem recIter_descent {W : ℕ} {recv : ℤ → Option (Fin 8)} {h : ℤ → ℚ}
    (hdesc : ∀ c d, recv c = some d → h (c + nshift W d) < h c) :
    ∀ k c b, recIter W recv k c = some b → k ≠ 0 → h b < h c := by
  intro k
  induction k with
  | zero => intro c b _ hk; exact absurd rfl hk
  | succ k ih =>
    intro c b hit _
    rw [show recIter W recv (k + 1) c =
      match recv c with
      | none => none
      | some d => recIter W recv k (c + nshift W d) from rfl] at hit
    cases hc : recv c with
    | none => rw [hc] at hit; exact absurd hit (by simp)
    | some d =>
      rw [hc] at hit
      rcases Nat.eq_zero_or_pos k with rfl | hk
      · have hb : c + nshift W d = b := by simpa [recIter] using hit
        rw [← hb]; exact hdesc c d hc
      · exact lt_trans (ih _ b hit hk.ne') (hdesc c d hc)

/-- Every receiver chain reaches a `NO_FLOW` cell within as many steps as
there are interior cells (pigeonhole via strict descent). -/
theorem chain_reaches_sink {W H : ℕ} {recv : ℤ → Option (Fin 8)} {h : ℤ → ℚ}
    (hdesc : ∀ c d, recv c = some d → h (c + nshift W d) < h c)
    (hsupp : ∀ c, recv c ≠ none → InRect W 2 (H - 2) 2 (W - 2) c) :
    ∀ c, ∃ k ≤ (cellsRect W 2 (H - 2) 2 (W - 2)).length,
      ∃ t, recIter W recv k c = some t ∧ recv t = none := by
  intro c
  by_contra hno
  push_neg at hno
  set N := (cellsRect W 2 (H - 2) 2 (W - 2)).length with hN
  -- the chain survives every step up to N, never hitting a sink
  have hsurv : ∀ k, k ≤ N → ∃ t, recIter W recv k c = some t ∧ recv t ≠ none := by
    intro k
    induction k with
    | zero =>
      intro _
      exact ⟨c, rfl, fun hcn => hno 0 (Nat.zero_le _) c rfl hcn⟩
    | succ k ih =>
      intro hk1
      obtain ⟨t, hit, htn⟩ := ih (Nat.le_of_succ_le hk1)
      cases ht : recv t with
      | none => exact absurd ht htn
      | some d =>
        refine ⟨t + nshift W d, ?_, ?_⟩
        · rw [recIter_succ_back, hit]; simp [ht]
        · intro hcn
          refine hno (k + 1) hk1 (t + nshift W d) ?_ hcn
          rw [recIter_succ_back, hit]; simp [ht]
  -- the cells of the chain, as a function on Fin (N+1)
  have hmem : ∀ j : Fin (N + 1), ∃ t, recIter W recv j.val c = some t := by
    intro j
    obtain ⟨t, hit, _⟩ := hsurv j.val (Nat.lt_succ_iff.1 j.isLt)
    exact ⟨t, hit⟩
  choose f hf using hmem
  have hinj : Function.Injective f := by
    have key : ∀ a b : Fin (N + 1), a.val < b.val → f a = f b → False := by
      intro a b hlt heq
      have hchain : recIter W recv (a.val + (b.val - a.val)) c = some (f b) := by
        rw [Nat.add_sub_cancel' hlt.le]; exact hf b
      rw [recIter_add, hf a, Option.some_bind] at hchain
      have hdrop : h (f b) < h (f a) :=
        recIter_descent hdesc _ _ _ hchain (by omega)
      rw [heq] at hdrop
      exact absurd hdrop (lt_irrefl _)
    intro a b hab
    rcases Nat.lt_trichotomy a.val b.val with hlt | heqv | hgt
    · exact absurd hab (fun hh => key a b hlt hh)
    · exact Fin.ext heqv
    · exact absurd hab.symm (fun hh => key b a hgt hh)
  have hrange : ∀ j : Fin (N + 1), f j ∈ cellsRect W 2 (H - 2) 2 (W - 2) := by
    intro j
    obtain ⟨t, hit, htn⟩ := hsurv j.val (Nat.lt_succ_iff.1 j.isLt)
    have : t = f j := by rw [hf j] at hit; exact (Option.some_injective _ hit).symm
    rw [← this]
    exact mem_cellsRect.2 (hsupp t htn)
  -- pigeonhole
  have hcard : N + 1 ≤ N := by
    have h1 : (Finset.univ.image f).card = N + 1 := by
      rw [Finset.card_image_of_injective _ hinj, Finset.card_univ, Fintype.card_fin]
    have h2 : Finset.univ.image f ⊆ (cellsRect W 2 (H - 2) 2 (W - 2)).toFinset := by
      intro x hx
      rcases Finset.mem_image.1 hx with ⟨j, _, rfl⟩
      exact List.mem_toFinset.2 (hrange j)
    calc N + 1 = (Finset.univ.image f).card := h1.symm
      _ ≤ (cellsRect W 2 (H - 2) 2 (W - 2)).toFinset.card := Finset.card_le_card h2
      _ ≤ N := List.toFinset_card_le _
  omega

/-! ## Claim C3 -/

/-- **C3.** After the Receivers stage of every step (stale receiver entries
being `NO_FLOW` outside the recomputed interior), every cell `c` with
`rec[c] ≠ SINK` has a receiver `n = c + nshift[rec[c]]` with `h[n] < h[c]`
(elevations as read by this stage), and consequently the receiver graph has
no cycle — every chain of receiver links terminates at a `NO_FLOW` cell
(sinks and halo), so the graph is a forest rooted there. -/
theorem C3_receiver_descent_acyclic (W H : ℕ) (h : ℤ → ℚ)
    (rec0 : ℤ → Option (Fin 8))
    (hrec0 : ∀ c, ¬ InRect W 2 (H - 2) 2 (W - 2) c → rec0 c = none) :
    (∀ c d, computeReceivers W H h rec0 c = some d →
      h (c + nshift W d) < h c) ∧
    (∀ c k, 0 < k → recIter W (computeReceivers W H h rec0) k c ≠ some c) ∧
    (∀ c, ∃ k ≤ (cellsRect W 2 (H - 2) 2 (W - 2)).length,
      ∃ t, recIter W (computeReceivers W H h rec0) k c = some t ∧
        computeReceivers W H h rec0 t = none) := by
  have hdesc := @computeReceivers_desc W H h rec0 hrec0
  refine ⟨hdesc, ?_, ?_⟩
  · intro c k hk hcyc
    exact absurd (recIter_descent hdesc k c c hcyc hk.ne') (lt_irrefl _)
  · exact chain_reaches_sink hdesc (computeReceivers_support hrec0)

/-- Witness for C3 at `W = H = 5`, flat zero elevations, fresh receiver
array. -/
theorem C3_receiver_descent_acyclic_witness :
    (∀ c d, computeReceivers 5 5 (fun _ => 0) (fun _ => none) c = some d →
      (fun _ => (0 : ℚ)) (c + nshift 5 d) < (fun _ => (0 : ℚ)) c) ∧
    (∀ c k, 0 < k →
      recIter 5 (computeReceivers 5 5 (fun _ => 0) (fun _ => none)) k c ≠ some c) ∧
    (∀ c, ∃ k ≤ (cellsRect 5 2 3 2 3).length,
      ∃ t, recIter 5 (computeReceivers 5 5 (fun _ => 0) (fun _ => none)) k c = some t ∧
        computeReceivers 5 5 (fun _ => 0) (fun _ => none) t = none) :=
  C3_receiver_descent_acyclic 5 5 (fun _ => 0) (fun _ => none) (fun _ _ => rfl)

/-! ## The donor scan -/

theorem donorScanStep_eq (W : ℕ) (recv : ℤ → Option (Fin 8)) (c : ℤ)
    (st : (ℤ → ℕ) × (ℤ → ℤ)) (ni : Fin 8) :
    donorScanStep W recv c st ni =
      match donorFilter W recv c ni with
      | some n => (Function.update st.1 c (st.1 c + 1),
                   Function.update st.2 (8 * c + st.1 c) n)
      | none => st := by
  simp only [donorScanStep, donorFilter]
  cases hrec : recv (c + nshift W ni) with
  | none => rfl
  | some d =>
    by_cases hif : c + nshift W ni + nshift W d = c <;> simp [hif]

/-- The donors selected from a partial direction scan. -/
def donorListDirs (W : ℕ) (recv : ℤ → Option (Fin 8)) (c : ℤ)
    (l : List (Fin 8)) : List ℤ :=
  l.filterMap (donorFilter W recv c)

theorem donorList_eq_dirs (W : ℕ) (recv : ℤ → Option (Fin 8)) (c : ℤ) :
    donorList W recv c = donorListDirs W recv c (List.finRange 8) := rfl

/-- Complete description of the neighbour-scan fold of `ComputeDonors`: the
counter at `c` advances by the number of donors found, the donor slots from
`8c + ndon[c]` receive the donors in scan order, and nothing else changes. -/
theorem donorScan_fold (W : ℕ) (recv : ℤ → Option (Fin 8)) (c : ℤ)
    (l : List (Fin 8)) :
    ∀ (nd : ℤ → ℕ) (dn : ℤ → ℤ),
      (l.foldl (donorScanStep W recv c) (nd, dn)).1 =
        Function.update nd c (nd c + (donorListDirs W recv c l).length) ∧
      ∀ i : ℤ,
        (l.foldl (donorScanStep W recv c) (nd, dn)).2 i =
          if 8 * c + (nd c : ℤ) ≤ i ∧
              i < 8 * c + (nd c : ℤ) + (donorListDirs W recv c l).length
          then (donorListDirs W recv c l).getD (i - (8 * c + (nd c : ℤ))).toNat 0
          else dn i := by
  induction l with
  | nil =>
    intro nd dn
    refine ⟨by simp [donorListDirs], ?_⟩
    intro i
    have hcond : ¬ (8 * c + (nd c : ℤ) ≤ i ∧
        i < 8 * c + (nd c : ℤ) + (donorListDirs W recv c []).length) := by
      simp only [donorListDirs, List.filterMap_nil, List.length_nil,
        Nat.cast_zero, add_zero]
      omega
    rw [if_neg hcond]
    rfl
  | cons ni tl ih =>
    intro nd dn
    rw [List.foldl_cons, donorScanStep_eq]
    cases hf : donorFilter W recv c ni with
    | none =>
      have haux : donorListDirs W recv c (ni :: tl) = donorListDirs W recv c tl := by
        simp [donorListDirs, List.filterMap_cons, hf]
      rw [haux]
      exact ih nd dn
    | some n =>
      have haux : donorListDirs W recv c (ni :: tl) =
          n :: donorListDirs W recv c tl := by
        simp [donorListDirs, List.filterMap_cons, hf]
      rw [haux]
      obtain ⟨ih1, ih2⟩ := ih (Function.update nd c (nd c + 1))
        (Function.update dn (8 * c + (nd c : ℤ)) n)
      refine ⟨?_, ?_⟩
      · rw [ih1, Function.update_idem, Function.update_same]
        have hlen : nd c + 1 + (donorListDirs W recv c tl).length
            = nd c + (n :: donorListDirs W recv c tl).length := by
          simp only [List.length_cons]; omega
        rw [hlen]
      · intro i
        rw [ih2 i]
        simp only [Function.update_same, List.length_cons]
        push_cast
        split_ifs with hA hB hB
        · have hidx : (i - (8 * c + (nd c : ℤ))).toNat =
              (i - (8 * c + ((nd c : ℤ) + 1))).toNat + 1 := by omega
          rw [hidx, List.getD_cons_succ]
        · exfalso; omega
        · have hi : i = 8 * c + (nd c : ℤ) := by omega
          rw [hi, Function.update_same]
          have hidx : ((8 * c + (nd c : ℤ)) - (8 * c + (nd c : ℤ))).toNat = 0 := by
            omega
          rw [hidx, List.getD_cons_zero]
        · have hne : i ≠ 8 * c + (nd c : ℤ) := by
            intro hi; rw [hi] at hB; exact hB (by omega)
          rw [Function.update_noteq hne]

/-- At most eight donors are ever recorded for a cell. -/
theorem donorList_length_le (W : ℕ) (recv : ℤ → Option (Fin 8)) (c : ℤ) :
    (donorList W recv c).length ≤ 8 := by
  have := List.length_filterMap_le (donorFilter W recv c) (List.finRange 8)
  simpa [donorList] using this

theorem donorListDirs_length_le (W : ℕ) (recv : ℤ → Option (Fin 8)) (c : ℤ)
    (l : List (Fin 8)) : (donorListDirs W recv c l).length ≤ l.length :=
  List.length_filterMap_le _ _

/-- Full description of `donorScan`: the counter at `c` becomes the donor
count, slots `8c .. 8c+ndon[c])` hold the donors in scan order, and
everything else is untouched. -/
theorem donorScan_spec (W : ℕ) (recv : ℤ → Option (Fin 8)) (c : ℤ)
    (st : (ℤ → ℕ) × (ℤ → ℤ)) :
    (donorScan W recv c st).1 =
      Function.update st.1 c (donorList W recv c).length ∧
    ∀ i : ℤ, (donorScan W recv c st).2 i =
      if 8 * c ≤ i ∧ i < 8 * c + (donorList W recv c).length
      then (donorList W recv c).getD (i - 8 * c).toNat 0
      else st.2 i := by
  obtain ⟨h1, h2⟩ := donorScan_fold W recv c (List.finRange 8)
    (Function.update st.1 c 0) st.2
  rw [donorList_eq_dirs]
  constructor
  · rw [donorScan, h1, Function.update_idem, Function.update_same]
    simp
  · intro i
    rw [donorScan, h2 i, Function.update_same]
    simp

/-- Distinct cells own disjoint 8-slot donor blocks. -/
theorem donor_block_disjoint {c c' : ℤ} {k k' : ℕ} (hne : c ≠ c')
    (hk : k < 8) (hk' : k' < 8) : 8 * c + (k : ℤ) ≠ 8 * c' + (k' : ℤ) := by
  intro hEq
  apply hne
  omega

/-- Pointwise description of `ComputeDonors` over any cell list. -/
theorem donors_fold_spec (W : ℕ) (recv : ℤ → Option (Fin 8)) (L : List ℤ) :
    ∀ st : (ℤ → ℕ) × (ℤ → ℤ), ∀ c : ℤ,
      ((L.foldl (fun st c => donorScan W recv c st) st).1 c =
        if c ∈ L then (donorList W recv c).length else st.1 c) ∧
      (∀ k : ℕ, k < 8 →
        (L.foldl (fun st c => donorScan W recv c st) st).2 (8 * c + k) =
          if c ∈ L ∧ k < (donorList W recv c).length
          then (donorList W recv c).getD k 0
          else st.2 (8 * c + k)) := by
  induction L with
  | nil => intro st c; simp
  | cons a tl ih =>
    intro st c
    rw [List.foldl_cons]
    obtain ⟨hs1, hs2⟩ := donorScan_spec W recv a st
    obtain ⟨ih1, ih2⟩ := ih (donorScan W recv a st) c
    by_cases hctl : c ∈ tl
    · refine ⟨?_, ?_⟩
      · rw [ih1, if_pos hctl, if_pos (List.mem_cons_of_mem a hctl)]
      · intro k hk
        rw [ih2 k hk]
        by_cases hkl : k < (donorList W recv c).length
        · rw [if_pos ⟨hctl, hkl⟩, if_pos ⟨List.mem_cons_of_mem a hctl, hkl⟩]
        · rw [if_neg (fun hh => hkl hh.2), if_neg (fun hh => hkl hh.2), hs2,
            if_neg ?hblk]
          case hblk =>
            rintro ⟨hh1, hh2⟩
            have hlenA := donorList_length_le W recv a
            have hca : c = a := by omega
            subst hca
            exact hkl (by omega)
    · by_cases hca : c = a
      · subst hca
        refine ⟨?_, ?_⟩
        · rw [ih1, if_neg hctl, hs1, Function.update_same,
            if_pos (List.mem_cons_self _ _)]
        · intro k hk
          rw [ih2 k hk, if_neg (fun hh => hctl hh.1), hs2]
          by_cases hkl : k < (donorList W recv c).length
          · rw [if_pos (by constructor <;> omega),
              if_pos ⟨List.mem_cons_self _ _, hkl⟩]
            have : ((8 * c + (k : ℤ)) - 8 * c).toNat = k := by omega
            rw [this]
          · rw [if_neg (by intro hh; omega),
              if_neg (fun hh => hkl hh.2)]
      · have hcn : c ∉ a :: tl := by
          intro hh; rcases List.mem_cons.1 hh with h | h
          · exact hca h
          · exact hctl h
        refine ⟨?_, ?_⟩
        · rw [ih1, if_neg hctl, hs1, Function.update_noteq hca,
            if_neg hcn]
        · intro k hk
          rw [ih2 k hk, if_neg (fun hh => hctl hh.1), hs2,
            if_neg ?hblock, if_neg (fun hh => hcn hh.1)]
          case hblock =>
            rintro ⟨hh1, hh2⟩
            have hlen := donorList_length_le W recv a
            apply hca
            omega

/-- `n` is listed as a donor of `c` exactly when `n`'s receiver is `c`. -/
theorem mem_donorList {W : ℕ} {recv : ℤ → Option (Fin 8)} {c n : ℤ} :
    n ∈ donorList W recv c ↔
      ∃ d, recv n = some d ∧ n + nshift W d = c := by
  unfold donorList
  rw [List.mem_filterMap]
  constructor
  · rintro ⟨ni, _, hni⟩
    simp only [donorFilter] at hni
    rcases hrec : recv (c + nshift W ni) with _ | d
    · rw [hrec] at hni; exact absurd hni (by simp)
    · simp only [hrec] at hni
      by_cases hif : c + nshift W ni + nshift W d = c
      · rw [if_pos hif] at hni
        have hn : c + nshift W ni = n := by simpa using hni
        exact ⟨d, by rw [← hn]; exact hrec, by rw [← hn]; exact hif⟩
      · rw [if_neg hif] at hni; exact absurd hni (by simp)
  · rintro ⟨d, hd, hrec⟩
    refine ⟨d + 4, List.mem_finRange _, ?_⟩
    have hn : c + nshift W (d + 4) = n := by
      rw [nshift_opp]; omega
    simp only [donorFilter]
    rw [hn, hd]
    simp [hrec]

/-- A donor determines the scan direction that produced it, so the donor
list of each cell is duplicate-free (for `3 ≤ W`). -/
theorem donorList_nodup {W : ℕ} (hW : 3 ≤ W) (recv : ℤ → Option (Fin 8))
    (c : ℤ) : (donorList W recv c).Nodup := by
  unfold donorList
  refine List.Nodup.filterMap ?_ (List.nodup_finRange 8)
  intro a a' b hb hb'
  rw [Option.mem_def] at hb hb'
  have ha : c + nshift W a = b := by
    simp only [donorFilter] at hb
    rcases hrec : recv (c + nshift W a) with _ | d
    · rw [hrec] at hb; exact absurd hb (by simp)
    · simp only [hrec] at hb
      by_cases hif : c + nshift W a + nshift W d = c
      · rw [if_pos hif] at hb; simpa using hb
      · rw [if_neg hif] at hb; exact absurd hb (by simp)
  have ha' : c + nshift W a' = b := by
    simp only [donorFilter] at hb'
    rcases hrec : recv (c + nshift W a') with _ | d
    · rw [hrec] at hb'; exact absurd hb' (by simp)
    · simp only [hrec] at hb'
      by_cases hif : c + nshift W a' + nshift W d = c
      · rw [if_pos hif] at hb'; simpa using hb'
      · rw [if_neg hif] at hb'; exact absurd hb' (by simp)
  exact nshift_injective hW (by omega)

theorem getD_of_lt {α : Type} (l : List α) (d : α) (k : ℕ) (hk : k < l.length) :
    l.getD k d = l[k] := by
  simp [List.getD_eq_getElem?_getD, List.getElem?_eq_getElem hk]

/-! ## Claim C5 -/

/-- **C5.** After `ComputeDonors` in any step: for every cell `c` with
`1 ≤ x ≤ W-2`, `1 ≤ y ≤ H-2`, `ndon[c]` and the slots
`donor[8c .. 8c+ndon[c])` enumerate exactly (and without repetition) the
neighbours `n` with `rec[n] ≠ SINK` and `n + nshift[rec[n]] = c`;
equivalently, for every cell `c`, `rec[c] = d ≠ SINK` holds iff `c` occurs
in one of the first `ndon[c + nshift[d]]` donor slots of `c + nshift[d]`.
(The step context supplies: stale receiver entries are `NO_FLOW` outside the
interior, and stale donor counters are 0 outside the frame.) -/
theorem C5_donor_duality (W H : ℕ) (h : ℤ → ℚ)
    (rec0 : ℤ → Option (Fin 8)) (nd0 : ℤ → ℕ) (dn0 : ℤ → ℤ)
    (recv : ℤ → Option (Fin 8)) (nd : ℤ → ℕ) (dn : ℤ → ℤ)
    (hW : 3 ≤ W)
    (hrec0 : ∀ c, ¬ InRect W 2 (H - 2) 2 (W - 2) c → rec0 c = none)
    (hnd0 : ∀ c, ¬ InRect W 1 (H - 1) 1 (W - 1) c → nd0 c = 0)
    (hrecv : recv = computeReceivers W H h rec0)
    (hnddn : (nd, dn) = computeDonors W H recv nd0 dn0) :
    (∀ c, InRect W 1 (H - 1) 1 (W - 1) c →
      nd c = (donorList W recv c).length ∧
      (∀ n : ℤ, (∃ k : ℕ, k < nd c ∧ dn (8 * c + k) = n) ↔
        ∃ d, recv n = some d ∧ n + nshift W d = c) ∧
      (∀ k k' : ℕ, k < nd c → k' < nd c →
        dn (8 * c + k) = dn (8 * c + k') → k = k')) ∧
    (∀ (c : ℤ) (d : Fin 8), recv c = some d ↔
      ∃ k : ℕ, k < nd (c + nshift W d) ∧
        dn (8 * (c + nshift W d) + k) = c) := by
  have hnd1 : nd = (computeDonors W H recv nd0 dn0).1 := congrArg Prod.fst hnddn
  have hdn1 : dn = (computeDonors W H recv nd0 dn0).2 := congrArg Prod.snd hnddn
  have hfold : ∀ c : ℤ,
      ((computeDonors W H recv nd0 dn0).1 c =
        if c ∈ cellsRect W 1 (H - 1) 1 (W - 1)
        then (donorList W recv c).length else nd0 c) ∧
      (∀ k : ℕ, k < 8 → (computeDonors W H recv nd0 dn0).2 (8 * c + k) =
        if c ∈ cellsRect W 1 (H - 1) 1 (W - 1) ∧ k < (donorList W recv c).length
        then (donorList W recv c).getD k 0 else dn0 (8 * c + k)) :=
    fun c => donors_fold_spec W recv (cellsRect W 1 (H - 1) 1 (W - 1)) (nd0, dn0) c
  have hnd_eq : ∀ c : ℤ, nd c =
      if c ∈ cellsRect W 1 (H - 1) 1 (W - 1)
      then (donorList W recv c).length else nd0 c := by
    intro c
    rw [hnd1]
    exact (hfold c).1
  have hdn_eq : ∀ (c : ℤ) (k : ℕ), k < 8 → dn (8 * c + k) =
      if c ∈ cellsRect W 1 (H - 1) 1 (W - 1) ∧ k < (donorList W recv c).length
      then (donorList W recv c).getD k 0 else dn0 (8 * c + k) := by
    intro c k hk
    rw [hdn1]
    exact (hfold c).2 k hk
  have hframe : ∀ c, InRect W 1 (H - 1) 1 (W - 1) c →
      nd c = (donorList W recv c).length := by
    intro c hc
    rw [hnd_eq, if_pos (mem_cellsRect.2 hc)]
  have hentry : ∀ c, InRect W 1 (H - 1) 1 (W - 1) c →
      ∀ (k : ℕ) (hkl : k < (donorList W recv c).length),
        dn (8 * c + k) = (donorList W recv c).get ⟨k, hkl⟩ := by
    intro c hc k hkl
    have hk8 : k < 8 := lt_of_lt_of_le hkl (donorList_length_le W recv c)
    rw [hdn_eq c k hk8, if_pos ⟨mem_cellsRect.2 hc, hkl⟩, getD_of_lt _ 0 k hkl,
      List.get_eq_getElem]
  refine ⟨?_, ?_⟩
  · intro c hc
    refine ⟨hframe c hc, ?_, ?_⟩
    · intro n
      constructor
      · rintro ⟨k, hk, rfl⟩
        rw [hframe c hc] at hk
        rw [← @mem_donorList W recv]
        rw [hentry c hc k hk]
        exact List.get_mem _ _ _
      · intro hmem
        rw [← @mem_donorList W recv] at hmem
        obtain ⟨k, hkl, hkn⟩ := List.mem_iff_getElem.1 hmem
        refine ⟨k, by rw [hframe c hc]; exact hkl, ?_⟩
        rw [hentry c hc k hkl, List.get_eq_getElem]
        exact hkn
    · intro k k' hk hk' heq
      rw [hframe c hc] at hk hk'
      rw [hentry c hc k hk, hentry c hc k' hk',
        List.get_eq_getElem, List.get_eq_getElem] at heq
      exact ((donorList_nodup hW recv c).getElem_inj_iff).1 heq
  · intro c d
    constructor
    · intro hcd
      have hci : InRect W 2 (H - 2) 2 (W - 2) c := by
        apply computeReceivers_support hrec0
        · rw [← hrecv]; rw [hcd]; simp
      have hrf : InRect W 1 (H - 1) 1 (W - 1) (c + nshift W d) :=
        frame_of_interior_nbr hci d
      have hmem : c ∈ donorList W recv (c + nshift W d) :=
        mem_donorList.2 ⟨d, hcd, rfl⟩
      obtain ⟨k, hkl, hkn⟩ := List.mem_iff_getElem.1 hmem
      refine ⟨k, by rw [hframe _ hrf]; exact hkl, ?_⟩
      rw [hentry _ hrf k hkl, List.get_eq_getElem]
      exact hkn
    · rintro ⟨k, hk, heq⟩
      by_cases hrf : InRect W 1 (H - 1) 1 (W - 1) (c + nshift W d)
      · rw [hframe _ hrf] at hk
        rw [hentry _ hrf k hk] at heq
        have hmem : c ∈ donorList W recv (c + nshift W d) := by
          have hg := List.get_mem (donorList W recv (c + nshift W d)) k hk
          rw [heq] at hg
          exact hg
        obtain ⟨d', hd', hshift⟩ := mem_donorList.1 hmem
        have : d' = d := nshift_injective hW (by omega)
        rw [← this]; exact hd'
      · rw [hnd_eq, if_neg (fun hm => hrf (mem_cellsRect.1 hm)),
          hnd0 _ hrf] at hk
        exact absurd hk (by omega)

/-- Witness for C5 at `W = H = 5`, flat zero elevations, fresh state. -/
theorem C5_donor_duality_witness :
    (∀ c, InRect 5 1 4 1 4 c →
      (computeDonors 5 5 (computeReceivers 5 5 (fun _ => 0) (fun _ => none))
          (fun _ => 0) (fun _ => 0)).1 c =
        (donorList 5 (computeReceivers 5 5 (fun _ => 0) (fun _ => none)) c).length ∧
      (∀ n : ℤ, (∃ k : ℕ,
          k < (computeDonors 5 5 (computeReceivers 5 5 (fun _ => 0) (fun _ => none))
              (fun _ => 0) (fun _ => 0)).1 c ∧
          (computeDonors 5 5 (computeReceivers 5 5 (fun _ => 0) (fun _ => none))
              (fun _ => 0) (fun _ => 0)).2 (8 * c + k) = n) ↔
        ∃ d, computeReceivers 5 5 (fun _ => 0) (fun _ => none) n = some d ∧
          n + nshift 5 d = c) ∧
      (∀ k k' : ℕ,
        k < (computeDonors 5 5 (computeReceivers 5 5 (fun _ => 0) (fun _ => none))
            (fun _ => 0) (fun _ => 0)).1 c →
        k' < (computeDonors 5 5 (computeReceivers 5 5 (fun _ => 0) (fun _ => none))
            (fun _ => 0) (fun _ => 0)).1 c →
        (computeDonors 5 5 (computeReceivers 5 5 (fun _ => 0) (fun _ => none))
            (fun _ => 0) (fun _ => 0)).2 (8 * c + k) =
          (computeDonors 5 5 (computeReceivers 5 5 (fun _ => 0) (fun _ => none))
              (fun _ => 0) (fun _ => 0)).2 (8 * c + k') → k = k')) ∧
    (∀ (c : ℤ) (d : Fin 8),
      computeReceivers 5 5 (fun _ => 0) (fun _ => none) c = some d ↔
      ∃ k : ℕ,
        k < (computeDonors 5 5 (computeReceivers 5 5 (fun _ => 0) (fun _ => none))
            (fun _ => 0) (fun _ => 0)).1 (c + nshift 5 d) ∧
        (computeDonors 5 5 (computeReceivers 5 5 (fun _ => 0) (fun _ => none))
            (fun _ => 0) (fun _ => 0)).2 (8 * (c + nshift 5 d) + k) = c) :=
  C5_donor_duality 5 5 (fun _ => 0) (fun _ => none) (fun _ => 0) (fun _ => 0)
    _ _ _ (by norm_num) (fun _ _ => rfl) (fun _ _ => rfl) rfl rfl

/-! ## Claim C10 -/

/-- **C10.** During the neighbour scan of `ComputeDonors` for a focal cell
`c`, after any prefix of the eight scan steps the counter `ndon[c]` never
exceeds 8, and every donor-array entry changed by the scan lies in the
8-slot block `[8c, 8c+7]`; in particular the final counter is at most 8. -/
theorem C10_donor_scan_safety (W : ℕ) (recv : ℤ → Option (Fin 8)) (c : ℤ)
    (nd0 : ℤ → ℕ) (dn0 : ℤ → ℤ) (p q : List (Fin 8))
    (hpq : List.finRange 8 = p ++ q) :
    (p.foldl (donorScanStep W recv c) (Function.update nd0 c 0, dn0)).1 c ≤ 8 ∧
    (∀ i : ℤ,
      (p.foldl (donorScanStep W recv c) (Function.update nd0 c 0, dn0)).2 i ≠ dn0 i →
      8 * c ≤ i ∧ i ≤ 8 * c + 7) ∧
    (donorScan W recv c (nd0, dn0)).1 c ≤ 8 := by
  have hp8 : p.length ≤ 8 := by
    have : (List.finRange 8).length = p.length + q.length := by
      rw [hpq, List.length_append]
    simp only [List.length_finRange] at this
    omega
  have hlenp : (donorListDirs W recv c p).length ≤ 8 :=
    le_trans (donorListDirs_length_le W recv c p) hp8
  obtain ⟨h1, h2⟩ := donorScan_fold W recv c p (Function.update nd0 c 0) dn0
  refine ⟨?_, ?_, ?_⟩
  · rw [h1, Function.update_idem, Function.update_same]
    simpa using hlenp
  · intro i hne
    rw [h2 i] at hne
    simp only [Function.update_same, Nat.cast_zero, add_zero] at hne
    by_cases hin : 8 * c ≤ i ∧ i < 8 * c + ((donorListDirs W recv c p).length : ℤ)
    · refine ⟨hin.1, ?_⟩
      have := hin.2
      omega
    · rw [if_neg hin] at hne
      exact absurd rfl hne
  · have := (donorScan_spec W recv c (nd0, dn0)).1
    rw [this, Function.update_same]
    exact donorList_length_le W recv c

/-- Witness for C10: a concrete split of the direction scan. -/
theorem C10_donor_scan_safety_witness :
    (([0, 1, 2, 3] : List (Fin 8)).foldl
        (donorScanStep 5 (fun _ => none) 0)
        (Function.update (fun _ => 0) 0 0, fun _ => 0)).1 0 ≤ 8 ∧
    (∀ i : ℤ,
      (([0, 1, 2, 3] : List (Fin 8)).foldl
          (donorScanStep 5 (fun _ => none) 0)
          (Function.update (fun _ => 0) 0 0, fun _ => 0)).2 i ≠ (fun _ => (0 : ℤ)) i →
      8 * 0 ≤ i ∧ i ≤ 8 * 0 + 7) ∧
    (donorScan 5 (fun _ => none) 0 (fun _ => 0, fun _ => 0)).1 0 ≤ 8 :=
  C10_donor_scan_safety 5 (fun _ => none) 0 (fun _ => 0) (fun _ => 0)
    [0, 1, 2, 3] [4, 5, 6, 7] (by decide)

/-! ## The Newton iteration of Erode -/

/-- One Newton update keeps the iterate in `[hn, x]` and keeps the
stream-power residual `F(x) = x - h0 + fact (x-hn)²` nonnegative. -/
theorem newtonStep_bounds {fact h0 hn x : ℚ} (hfact : 0 ≤ fact)
    (hhn : hn ≤ h0) (hx1 : hn ≤ x)
    (hF : 0 ≤ x - h0 + fact * (x - hn) ^ 2) :
    hn ≤ newtonStep fact h0 hn x ∧ newtonStep fact h0 hn x ≤ x ∧
      0 ≤ newtonStep fact h0 hn x - h0 +
        fact * (newtonStep fact h0 hn x - hn) ^ 2 := by
  have hD : 0 < 1 + fact * neq * (x - hn) := by
    unfold neq
    nlinarith
  refine ⟨?_, ?_, ?_⟩
  · unfold newtonStep
    have key : x - (x - h0 + fact * (x - hn) ^ 2) / (1 + fact * neq * (x - hn)) - hn =
        ((h0 - hn) + fact * (x - hn) ^ 2) / (1 + fact * neq * (x - hn)) := by
      field_simp
      unfold neq
      ring
    have hnn : 0 ≤ x - (x - h0 + fact * (x - hn) ^ 2) / (1 + fact * neq * (x - hn)) - hn := by
      rw [key]
      apply div_nonneg _ hD.le
      nlinarith
    linarith
  · unfold newtonStep
    have : 0 ≤ (x - h0 + fact * (x - hn) ^ 2) / (1 + fact * neq * (x - hn)) :=
      div_nonneg hF hD.le
    linarith
  · unfold newtonStep
    have key : x - (x - h0 + fact * (x - hn) ^ 2) / (1 + fact * neq * (x - hn)) - h0 +
        fact * ((x - (x - h0 + fact * (x - hn) ^ 2) / (1 + fact * neq * (x - hn))) - hn) ^ 2 =
        fact * ((x - h0 + fact * (x - hn) ^ 2) / (1 + fact * neq * (x - hn))) ^ 2 := by
      field_simp
      unfold neq
      ring
    rw [key]
    positivity

/-- The Newton loop stays within `[hn, h0]` whenever it starts there with a
nonnegative residual. -/
theorem newtonGo_bounds {fact h0 hn : ℚ} (hfact : 0 ≤ fact) (hhn : hn ≤ h0) :
    ∀ (fuel : ℕ) (x diffv : ℚ), hn ≤ x → x ≤ h0 →
      0 ≤ x - h0 + fact * (x - hn) ^ 2 →
      hn ≤ newtonGo fact h0 hn fuel x diffv ∧
        newtonGo fact h0 hn fuel x diffv ≤ h0 := by
  intro fuel
  induction fuel with
  | zero => intro x diffv h1 h2 _; exact ⟨h1, h2⟩
  | succ fuel ih =>
    intro x diffv h1 h2 hF
    rw [newtonGo]
    by_cases hd : tol < |diffv|
    · rw [if_pos hd]
      obtain ⟨k1, k2, k3⟩ := newtonStep_bounds hfact hhn h1 hF
      exact ih _ _ k1 (le_trans k2 h2) k3
    · rw [if_neg hd]
      exact ⟨h1, h2⟩

/-- The value the Newton solve of `Erode` returns never exceeds the
starting elevation `h0`. -/
theorem newtonSolve_le {fact h0 hn : ℚ} (hfact : 0 ≤ fact) (hhn : hn ≤ h0)
    (fuel : ℕ) : newtonSolve fact h0 hn fuel ≤ h0 := by
  unfold newtonSolve
  exact (newtonGo_bounds hfact hhn fuel h0 (2 * tol) hhn le_rfl
    (by nlinarith)).2

/-! ## Claim C6 -/

/-- **C6.** For every interior cell and every step: `AddUplift` alone never
decreases `h[c]` — on interior cells it adds exactly the constant
`ueq * dt` — and `Erode` alone never increases `h[c]`: the value the
Newton–Raphson loop stores back is at most the pre-erosion elevation,
whenever the receiver is not above the focal cell and the `pow` oracle is
nonnegative (both hold in every step: `accum ≥ 0` so `pow(accum,m) ≥ 0`,
and receivers lie strictly below their donors). -/
theorem C6_uplift_erode_monotone :
    (∀ (W H : ℕ) (h : ℤ → ℚ) (c : ℤ), h c ≤ addUplift W H h c) ∧
    (∀ (W H : ℕ) (h : ℤ → ℚ) (c : ℤ), InRect W 2 (H - 2) 2 (W - 2) c →
      addUplift W H h c = h c + ueq * dt) ∧
    (∀ (fact h0 hn : ℚ) (fuel : ℕ), 0 ≤ fact → hn ≤ h0 →
      newtonSolve fact h0 hn fuel ≤ h0) ∧
    (∀ (W : ℕ) (powm : ℚ → ℚ) (nfuel : ℕ) (recv : ℤ → Option (Fin 8))
      (accum : ℤ → ℚ) (h : ℤ → ℚ) (c : ℤ),
      0 ≤ powm (accum c) →
      (∀ d, recv c = some d → h (c + nshift W d) ≤ h c) →
      erodeCell W powm nfuel recv accum h c c ≤ h c) := by
  have huplift : ∀ (W H : ℕ) (h : ℤ → ℚ) (c : ℤ), addUplift W H h c =
      if c ∈ cellsRect W 2 (H - 2) 2 (W - 2) then h c + ueq * dt else h c := by
    intro W H h c
    unfold addUplift
    exact foldl_update_self (fun v => v + ueq * dt)
      (cellsRect W 2 (H - 2) 2 (W - 2)) (cellsRect_nodup (by omega)) h c
  refine ⟨?_, ?_, ?_, ?_⟩
  · intro W H h c
    rw [huplift]
    split
    · have : (0 : ℚ) ≤ ueq * dt := by norm_num [ueq, dt]
      linarith
    · exact le_rfl
  · intro W H h c hc
    rw [huplift, if_pos (mem_cellsRect.2 hc)]
  · intro fact h0 hn fuel hfact hhn
    exact newtonSolve_le hfact hhn fuel
  · intro W powm nfuel recv accum h c hpow hrec
    cases hc : recv c with
    | none => simp only [erodeCell, hc]; exact le_rfl
    | some d =>
      simp only [erodeCell, hc]
      rw [Function.update_same]
      refine newtonSolve_le ?_ (hrec d hc) nfuel
      have hdr : 0 < dr d ^ (2 : ℕ) := pow_pos (dr_pos d) 2
      have hkdt : (0 : ℚ) < keq * dt := by norm_num [keq, dt]
      positivity

/-- Witness for C6 at concrete values. -/
theorem C6_uplift_erode_monotone_witness :
    (2 : ℚ) ≤ addUplift 5 5 (fun _ => 2) 12 ∧
    InRect 5 2 3 2 3 (12 : ℤ) ∧
    addUplift 5 5 (fun _ => 2) 12 = 2 + ueq * dt ∧
    (0 : ℚ) ≤ 1 ∧ (0 : ℚ) ≤ 3 ∧ newtonSolve 1 3 0 5 ≤ 3 ∧
    (0 : ℚ) ≤ (fun _ => (1 : ℚ)) ((fun _ => (1 : ℚ)) (12 : ℤ)) ∧
    erodeCell 5 (fun _ => 1) 5 (fun _ => none) (fun _ => 1) (fun _ => 2) 12 12 ≤ 2 := by
  have h12 : InRect 5 2 3 2 3 (12 : ℤ) :=
    ⟨2, 2, le_rfl, by omega, le_rfl, by omega, by norm_num⟩
  refine ⟨C6_uplift_erode_monotone.1 5 5 (fun _ => 2) 12, h12,
    C6_uplift_erode_monotone.2.1 5 5 (fun _ => 2) 12 h12,
    by norm_num, by norm_num,
    C6_uplift_erode_monotone.2.2.1 1 3 0 5 (by norm_num) (by norm_num),
    by norm_num,
    C6_uplift_erode_monotone.2.2.2 5 (fun _ => 1) 5 (fun _ => none)
      (fun _ => 1) (fun _ => 2) 12 (by norm_num) (fun d hd => by simp at hd)⟩

/-! ## The level structure built by GenerateOrder -/

/-- The receiver chain from `a` meets its first `NO_FLOW` cell after exactly
`i` links. -/
def SinkAt (W : ℕ) (recv : ℤ → Option (Fin 8)) (i : ℕ) (a : ℤ) : Prop :=
  ∃ t, recIter W recv i a = some t ∧ recv t = none

theorem SinkAt_zero {W : ℕ} {recv : ℤ → Option (Fin 8)} {a : ℤ} :
    SinkAt W recv 0 a ↔ recv a = none := by
  unfold SinkAt
  constructor
  · rintro ⟨t, ht, htn⟩
    have : a = t := by simpa [recIter] using ht
    rw [this]; exact htn
  · intro ha; exact ⟨a, rfl, ha⟩

theorem SinkAt_succ {W : ℕ} {recv : ℤ → Option (Fin 8)} {i : ℕ} {a : ℤ} :
    SinkAt W recv (i + 1) a ↔
      ∃ d, recv a = some d ∧ SinkAt W recv i (a + nshift W d) := by
  unfold SinkAt
  have hrw : recIter W recv (i + 1) a =
      match recv a with
      | none => none
      | some d => recIter W recv i (a + nshift W d) := rfl
  constructor
  · rintro ⟨t, ht, htn⟩
    rw [hrw] at ht
    cases ha : recv a with
    | none => rw [ha] at ht; exact absurd ht (by simp)
    | some d =>
      rw [ha] at ht
      exact ⟨d, rfl, t, ht, htn⟩
  · rintro ⟨d, hd, t, ht, htn⟩
    refine ⟨t, ?_, htn⟩
    rw [hrw, hd]
    exact ht

/-- The first sink index along a chain is unique. -/
theorem SinkAt_unique {W : ℕ} {recv : ℤ → Option (Fin 8)} {i j : ℕ} {a : ℤ}
    (hi : SinkAt W recv i a) (hj : SinkAt W recv j a) : i = j := by
  by_contra hne
  -- wlog i < j
  have key : ∀ i j a, i < j → SinkAt W recv i a → SinkAt W recv j a → False := by
    clear hi hj hne i j a
    rintro i j a hij ⟨t, ht, htn⟩ ⟨u, hu, _⟩
    have hsplit : recIter W recv (i + (j - i)) a =
        (recIter W recv i a).bind (recIter W recv (j - i)) := recIter_add W recv _ _ _
    rw [Nat.add_sub_cancel' hij.le, hu, ht, Option.some_bind] at hsplit
    obtain ⟨m, hm⟩ : ∃ m, j - i = m + 1 := ⟨j - i - 1, by omega⟩
    rw [hm] at hsplit
    have : recIter W recv (m + 1) t = none := by
      rw [show recIter W recv (m + 1) t =
        match recv t with
        | none => none
        | some d => recIter W recv m (t + nshift W d) from rfl, htn]
    rw [this] at hsplit
    exact absurd hsplit (by simp)
  rcases Nat.lt_trichotomy i j with hlt | heq | hgt
  · exact key i j a hlt hi hj
  · exact hne heq
  · exact key j i a hgt hj hi

/-- The successive levels produced by `GenerateOrder`: seeds, then donors of
the previous level. -/
def levelL (W H : ℕ) (recv : ℤ → Option (Fin 8)) (nd : ℤ → ℕ) (dn : ℤ → ℤ) :
    ℕ → List ℤ
  | 0 => seedList W H recv
  | i + 1 => nextLevel nd dn (levelL W H recv nd dn i)

/-- The stack contents after levels `0 .. n` have been pushed. -/
def stackUpTo (W H : ℕ) (recv : ℤ → Option (Fin 8)) (nd : ℤ → ℕ)
    (dn : ℤ → ℤ) (n : ℕ) : List ℤ :=
  (List.range (n + 1)).flatMap (levelL W H recv nd dn)

/-- Number of stack entries strictly before level `j`. -/
def preLen (W H : ℕ) (recv : ℤ → Option (Fin 8)) (nd : ℤ → ℕ)
    (dn : ℤ → ℤ) (j : ℕ) : ℕ :=
  ((List.range j).flatMap (levelL W H recv nd dn)).length

/-- The `levels` array contents after levels `0 .. n` have been pushed. -/
def boundsUpTo (W H : ℕ) (recv : ℤ → Option (Fin 8)) (nd : ℤ → ℕ)
    (dn : ℤ → ℤ) (n : ℕ) : List ℕ :=
  (List.range (n + 2)).map (preLen W H recv nd dn)

theorem stackUpTo_succ (W H : ℕ) (recv : ℤ → Option (Fin 8)) (nd : ℤ → ℕ)
    (dn : ℤ → ℤ) (n : ℕ) :
    stackUpTo W H recv nd dn (n + 1) =
      stackUpTo W H recv nd dn n ++ levelL W H recv nd dn (n + 1) := by
  unfold stackUpTo
  rw [List.range_succ, List.flatMap_append]
  simp

/-- The donor slots read by `GenerateOrder` for a frame cell are exactly its
donor list. -/
theorem read_donors_eq {W H : ℕ} {recv : ℤ → Option (Fin 8)} {nd : ℤ → ℕ}
    {dn : ℤ → ℤ}
    (hnd : ∀ c, InRect W 1 (H - 1) 1 (W - 1) c →
      nd c = (donorList W recv c).length)
    (hdn : ∀ c, InRect W 1 (H - 1) 1 (W - 1) c →
      ∀ (k : ℕ) (hkl : k < (donorList W recv c).length),
        dn (8 * c + k) = (donorList W recv c).get ⟨k, hkl⟩)
    {c : ℤ} (hc : InRect W 1 (H - 1) 1 (W - 1) c) :
    (List.range (nd c)).map (fun k : ℕ => dn (8 * c + (k : ℤ))) =
      donorList W recv c := by
  apply List.ext_getElem
  · simp [hnd c hc]
  · intro i h1 h2
    have hi : i < nd c := by simpa using h1
    have hil : i < (donorList W recv c).length := by rw [← hnd c hc]; exact hi
    simp only [List.getElem_map, List.getElem_range]
    rw [hdn c hc i hil, List.get_eq_getElem]

/-- Characterisation of the levels: level `i` is duplicate-free and holds
exactly the frame cells whose receiver chain meets its first sink after `i`
links. -/
theorem levelL_spec {W H : ℕ} {recv : ℤ → Option (Fin 8)} {nd : ℤ → ℕ}
    {dn : ℤ → ℤ} (hW : 3 ≤ W)
    (hsupp : ∀ c, recv c ≠ none → InRect W 2 (H - 2) 2 (W - 2) c)
    (hnd : ∀ c, InRect W 1 (H - 1) 1 (W - 1) c →
      nd c = (donorList W recv c).length)
    (hdn : ∀ c, InRect W 1 (H - 1) 1 (W - 1) c →
      ∀ (k : ℕ) (hkl : k < (donorList W recv c).length),
        dn (8 * c + k) = (donorList W recv c).get ⟨k, hkl⟩) :
    ∀ i, (levelL W H recv nd dn i).Nodup ∧
      ∀ a, a ∈ levelL W H recv nd dn i ↔
        (InRect W 1 (H - 1) 1 (W - 1) a ∧ SinkAt W recv i a) := by
  intro i
  induction i with
  | zero =>
    constructor
    · exact List.Nodup.filter _ (cellsRect_nodup (by omega))
    · intro a
      show a ∈ (cellsRect W 1 (H - 1) 1 (W - 1)).filter _ ↔ _
      rw [List.mem_filter, mem_cellsRect, SinkAt_zero]
      simp [Option.isNone_iff_eq_none]
  | succ i ih =>
    obtain ⟨ihnodup, ihmem⟩ := ih
    have hmem : ∀ a, a ∈ levelL W H recv nd dn (i + 1) ↔
        (InRect W 1 (H - 1) 1 (W - 1) a ∧ SinkAt W recv (i + 1) a) := by
      intro a
      show a ∈ nextLevel nd dn (levelL W H recv nd dn i) ↔ _
      unfold nextLevel
      rw [List.mem_flatMap]
      constructor
      · rintro ⟨c, hcl, hal⟩
        obtain ⟨hcf, hcs⟩ := (ihmem c).1 hcl
        rw [read_donors_eq hnd hdn hcf] at hal
        obtain ⟨d, hd, hshift⟩ := mem_donorList.1 hal
        have haf : InRect W 1 (H - 1) 1 (W - 1) a :=
          frame_of_interior (hsupp a (by rw [hd]; simp))
        refine ⟨haf, SinkAt_succ.2 ⟨d, hd, ?_⟩⟩
        rw [hshift]
        exact hcs
      · rintro ⟨haf, hsk⟩
        obtain ⟨d, hd, hsink⟩ := SinkAt_succ.1 hsk
        have hai : InRect W 2 (H - 2) 2 (W - 2) a :=
          hsupp a (by rw [hd]; simp)
        have hcf : InRect W 1 (H - 1) 1 (W - 1) (a + nshift W d) :=
          frame_of_interior_nbr hai d
        refine ⟨a + nshift W d, (ihmem _).2 ⟨hcf, hsink⟩, ?_⟩
        rw [read_donors_eq hnd hdn hcf]
        exact mem_donorList.2 ⟨d, hd, rfl⟩
    refine ⟨?_, hmem⟩
    show (nextLevel nd dn (levelL W H recv nd dn i)).Nodup
    unfold nextLevel
    rw [List.nodup_flatMap]
    constructor
    · intro c hcl
      obtain ⟨hcf, _⟩ := (ihmem c).1 hcl
      rw [read_donors_eq hnd hdn hcf]
      exact donorList_nodup hW recv c
    · refine List.Pairwise.imp_of_mem ?_ ihnodup
      intro c c' hcl hcl' hne
      obtain ⟨hcf, _⟩ := (ihmem c).1 hcl
      obtain ⟨hcf', _⟩ := (ihmem c').1 hcl'
      simp only [Function.onFun]
      rw [read_donors_eq hnd hdn hcf, read_donors_eq hnd hdn hcf']
      intro a ha ha'
      obtain ⟨d, hd, hshift⟩ := mem_donorList.1 ha
      obtain ⟨d', hd', hshift'⟩ := mem_donorList.1 ha'
      apply hne
      rw [← hshift, ← hshift']
      rw [hd] at hd'
      rw [Option.some_injective _ hd']

theorem stackUpTo_zero (W H : ℕ) (recv : ℤ → Option (Fin 8)) (nd : ℤ → ℕ)
    (dn : ℤ → ℤ) :
    stackUpTo W H recv nd dn 0 = levelL W H recv nd dn 0 := by
  show (List.range 1).flatMap (levelL W H recv nd dn) = levelL W H recv nd dn 0
  rw [show List.range 1 = [0] from rfl]
  simp

theorem boundsUpTo_zero (W H : ℕ) (recv : ℤ → Option (Fin 8)) (nd : ℤ → ℕ)
    (dn : ℤ → ℤ) :
    boundsUpTo W H recv nd dn 0 = [0, (levelL W H recv nd dn 0).length] := by
  simp [boundsUpTo, preLen, List.range_succ]

theorem boundsUpTo_succ (W H : ℕ) (recv : ℤ → Option (Fin 8)) (nd : ℤ → ℕ)
    (dn : ℤ → ℤ) (n : ℕ) :
    boundsUpTo W H recv nd dn (n + 1) =
      boundsUpTo W H recv nd dn n ++ [(stackUpTo W H recv nd dn (n + 1)).length] := by
  unfold boundsUpTo
  rw [show n + 1 + 2 = (n + 2) + 1 by omega, List.range_succ, List.map_append]
  rfl

/-- Running the level loop from level `i`, when levels `i .. i+m-1` are
non-empty and level `i+m` is empty, terminates with the stack and bounds of
levels `0 .. i+m+1`. -/
theorem orderLoop_run {W H : ℕ} {recv : ℤ → Option (Fin 8)} {nd : ℤ → ℕ}
    {dn : ℤ → ℤ} :
    ∀ (m i fuel : ℕ),
      (∀ j, i ≤ j → j < i + m → levelL W H recv nd dn j ≠ []) →
      levelL W H recv nd dn (i + m) = [] →
      m < fuel →
      orderLoop nd dn fuel (levelL W H recv nd dn i)
          (stackUpTo W H recv nd dn i) (boundsUpTo W H recv nd dn i) =
        some (stackUpTo W H recv nd dn (i + m + 1),
              boundsUpTo W H recv nd dn (i + m + 1)) := by
  intro m
  induction m with
  | zero =>
    intro i fuel _ hempty hfuel
    obtain ⟨f, rfl⟩ : ∃ f, fuel = f + 1 := ⟨fuel - 1, by omega⟩
    show (let nxt := nextLevel nd dn (levelL W H recv nd dn i); _) = _
    simp only [orderLoop]
    have h1 : nextLevel nd dn (levelL W H recv nd dn i) =
        levelL W H recv nd dn (i + 1) := rfl
    rw [h1, ← stackUpTo_succ, ← boundsUpTo_succ]
    rw [Nat.add_zero] at hempty
    rw [hempty]
    simp
  | succ m ih =>
    intro i fuel hne hempty hfuel
    obtain ⟨f, rfl⟩ : ∃ f, fuel = f + 1 := ⟨fuel - 1, by omega⟩
    show (let nxt := nextLevel nd dn (levelL W H recv nd dn i); _) = _
    simp only [orderLoop]
    have h1 : nextLevel nd dn (levelL W H recv nd dn i) =
        levelL W H recv nd dn (i + 1) := rfl
    rw [h1, ← stackUpTo_succ, ← boundsUpTo_succ]
    have hcur : (levelL W H recv nd dn i).isEmpty = false := by
      rw [List.isEmpty_eq_false_iff_exists_mem]
      rcases List.exists_mem_of_ne_nil _ (hne i le_rfl (by omega)) with ⟨x, hx⟩
      exact ⟨x, hx⟩
    rw [hcur]
    simp only [Bool.false_eq_true, if_false]
    have := ih (i + 1) f
      (fun j hj1 hj2 => hne j (by omega) (by omega))
      (by rw [show i + 1 + m = i + (m + 1) by omega]; exact hempty)
      (by omega)
    rw [this]
    rw [show i + 1 + m + 1 = i + (m + 1) + 1 by omega]

/-- Some level is empty: levels beyond the interior-cell count cannot be
inhabited. -/
theorem exists_empty_level {W H : ℕ} {recv : ℤ → Option (Fin 8)}
    {nd : ℤ → ℕ} {dn : ℤ → ℤ} {h : ℤ → ℚ} (hW : 3 ≤ W)
    (hdesc : ∀ c d, recv c = some d → h (c + nshift W d) < h c)
    (hsupp : ∀ c, recv c ≠ none → InRect W 2 (H - 2) 2 (W - 2) c)
    (hnd : ∀ c, InRect W 1 (H - 1) 1 (W - 1) c →
      nd c = (donorList W recv c).length)
    (hdn : ∀ c, InRect W 1 (H - 1) 1 (W - 1) c →
      ∀ (k : ℕ) (hkl : k < (donorList W recv c).length),
        dn (8 * c + k) = (donorList W recv c).get ⟨k, hkl⟩) :
    levelL W H recv nd dn ((cellsRect W 2 (H - 2) 2 (W - 2)).length + 1) = [] := by
  set N := (cellsRect W 2 (H - 2) 2 (W - 2)).length with hN
  by_contra hne
  rcases List.exists_mem_of_ne_nil _ hne with ⟨a, ha⟩
  obtain ⟨_, hsk⟩ := ((levelL_spec hW hsupp hnd hdn (N + 1)).2 a).1 ha
  obtain ⟨k, hkN, t, ht, htn⟩ := chain_reaches_sink hdesc hsupp a
  have : N + 1 = k := SinkAt_unique hsk ⟨t, ht, htn⟩
  omega

theorem level_empty_mono {W H : ℕ} {recv : ℤ → Option (Fin 8)} {nd : ℤ → ℕ}
    {dn : ℤ → ℤ} {e : ℕ} (he : levelL W H recv nd dn e = []) :
    ∀ j, e ≤ j → levelL W H recv nd dn j = [] := by
  intro j hej
  obtain ⟨m, rfl⟩ : ∃ m, j = e + m := ⟨j - e, by omega⟩
  induction m with
  | zero => exact he
  | succ m ih =>
    have hm := ih (by omega)
    show nextLevel nd dn (levelL W H recv nd dn (e + m)) = []
    rw [hm]
    rfl

theorem mem_stackUpTo {W H : ℕ} {recv : ℤ → Option (Fin 8)} {nd : ℤ → ℕ}
    {dn : ℤ → ℤ} {n : ℕ} {a : ℤ} :
    a ∈ stackUpTo W H recv nd dn n ↔
      ∃ j, j ≤ n ∧ a ∈ levelL W H recv nd dn j := by
  unfold stackUpTo
  rw [List.mem_flatMap]
  constructor
  · rintro ⟨j, hj, ha⟩
    have hj' := List.mem_range.1 hj
    exact ⟨j, by omega, ha⟩
  · rintro ⟨j, hj, ha⟩
    exact ⟨j, List.mem_range.2 (by omega), ha⟩

theorem stackUpTo_nodup {W H : ℕ} {recv : ℤ → Option (Fin 8)} {nd : ℤ → ℕ}
    {dn : ℤ → ℤ} (hW : 3 ≤ W)
    (hsupp : ∀ c, recv c ≠ none → InRect W 2 (H - 2) 2 (W - 2) c)
    (hnd : ∀ c, InRect W 1 (H - 1) 1 (W - 1) c →
      nd c = (donorList W recv c).length)
    (hdn : ∀ c, InRect W 1 (H - 1) 1 (W - 1) c →
      ∀ (k : ℕ) (hkl : k < (donorList W recv c).length),
        dn (8 * c + k) = (donorList W recv c).get ⟨k, hkl⟩)
    (n : ℕ) : (stackUpTo W H recv nd dn n).Nodup := by
  unfold stackUpTo
  rw [List.nodup_flatMap]
  refine ⟨fun j _ => (levelL_spec hW hsupp hnd hdn j).1, ?_⟩
  refine List.Pairwise.imp_of_mem ?_ (List.nodup_range _)
  intro j j' _ _ hne
  intro a haj haj'
  obtain ⟨_, hsj⟩ := ((levelL_spec hW hsupp hnd hdn j).2 a).1 haj
  obtain ⟨_, hsj'⟩ := ((levelL_spec hW hsupp hnd hdn j').2 a).1 haj'
  exact hne (SinkAt_unique hsj hsj')

theorem stackUpTo_split {W H : ℕ} {recv : ℤ → Option (Fin 8)} {nd : ℤ → ℕ}
    {dn : ℤ → ℤ} : ∀ (n k : ℕ), k ≤ n →
    stackUpTo W H recv nd dn n =
      stackUpTo W H recv nd dn k ++
        (List.range' (k + 1) (n - k)).flatMap (levelL W H recv nd dn) := by
  intro n
  induction n with
  | zero =>
    intro k hk
    obtain rfl : k = 0 := by omega
    simp
  | succ n ih =>
    intro k hk
    rcases Nat.lt_or_ge k (n + 1) with hlt | hge
    · have hkn : k ≤ n := by omega
      rw [stackUpTo_succ, ih k hkn,
        show n + 1 - k = (n - k) + 1 by omega, List.range'_concat,
        show k + 1 + 1 * (n - k) = n + 1 by omega]
      rw [List.flatMap_append, List.append_assoc]
      simp
    · obtain rfl : k = n + 1 := by omega
      simp

theorem preLen_succ (W H : ℕ) (recv : ℤ → Option (Fin 8)) (nd : ℤ → ℕ)
    (dn : ℤ → ℤ) (j : ℕ) :
    preLen W H recv nd dn (j + 1) =
      preLen W H recv nd dn j + (levelL W H recv nd dn j).length := by
  unfold preLen
  rw [List.range_succ, List.flatMap_append, List.length_append]
  simp

theorem preLen_eq_length_stackUpTo (W H : ℕ) (recv : ℤ → Option (Fin 8))
    (nd : ℤ → ℕ) (dn : ℤ → ℤ) (n : ℕ) :
    preLen W H recv nd dn (n + 1) = (stackUpTo W H recv nd dn n).length := rfl

theorem boundsUpTo_getD (W H : ℕ) (recv : ℤ → Option (Fin 8)) (nd : ℤ → ℕ)
    (dn : ℤ → ℤ) (n j : ℕ) (hj : j < n + 2) :
    (boundsUpTo W H recv nd dn n).getD j 0 = preLen W H recv nd dn j := by
  unfold boundsUpTo
  rw [getD_of_lt _ 0 j (by simpa using hj)]
  simp

theorem boundsUpTo_length (W H : ℕ) (recv : ℤ → Option (Fin 8)) (nd : ℤ → ℕ)
    (dn : ℤ → ℤ) (n : ℕ) :
    (boundsUpTo W H recv nd dn n).length = n + 2 := by
  simp [boundsUpTo]

/-- What `GenerateOrder` returns, in terms of the level structure: the
concatenation of levels `0 .. e+1` and the bounds of levels `0 .. e`,
where `e` is an empty level with all previous levels non-empty. -/
theorem generateOrder_run {W H : ℕ} {recv : ℤ → Option (Fin 8)} {nd : ℤ → ℕ}
    {dn : ℤ → ℤ} {e : ℕ}
    (hne : ∀ j, j < e → levelL W H recv nd dn j ≠ [])
    (hempty : levelL W H recv nd dn e = [])
    (hfuel : e < W * H + 2) :
    generateOrder W H recv nd dn =
      some (stackUpTo W H recv nd dn (e + 1), boundsUpTo W H recv nd dn e) := by
  have hrun := @orderLoop_run W H recv nd dn e 0 (W * H + 2)
    (fun j hj1 hj2 => hne j (by omega)) (by simpa using hempty) hfuel
  simp only [Nat.zero_add] at hrun
  rw [stackUpTo_zero, boundsUpTo_zero] at hrun
  have hgo : generateOrder W H recv nd dn =
      Option.map (fun p => (p.1, p.2.dropLast))
        (orderLoop nd dn (W * H + 2) (levelL W H recv nd dn 0)
          (levelL W H recv nd dn 0) [0, (levelL W H recv nd dn 0).length]) := rfl
  rw [hgo, hrun]
  simp only [Option.map]
  rw [boundsUpTo_succ, List.dropLast_concat]

theorem sum_map_constNat : ∀ (l : List ℕ) (k : ℕ),
    (l.map (fun _ => k)).sum = l.length * k := by
  intro l k
  induction l with
  | nil => simp
  | cons a tl ih => simp [ih, Nat.succ_mul, Nat.add_comm]

theorem cellsRect_length (W y0 y1 x0 x1 : ℕ) :
    (cellsRect W y0 y1 x0 x1).length = (y1 - y0) * (x1 - x0) := by
  unfold cellsRect
  rw [List.length_flatMap]
  have : ∀ y : ℕ,
      ((List.range' x0 (x1 - x0)).map fun x => ((y * W + x : ℕ) : ℤ)).length
        = x1 - x0 := by
    intro y; simp
  rw [show (List.map (List.length ∘ fun y =>
        (List.range' x0 (x1 - x0)).map fun x => ((y * W + x : ℕ) : ℤ))
        (List.range' y0 (y1 - y0)))
      = (List.range' y0 (y1 - y0)).map (fun _ => x1 - x0) from
    List.map_congr_left (fun y _ => this y)]
  rw [sum_map_constNat]
  simp

/-- There is a first empty level, no later than one past the number of
interior cells, and within the fuel `W*H + 2` of `generateOrder`. -/
theorem order_exists_e {W H : ℕ} {recv : ℤ → Option (Fin 8)} {nd : ℤ → ℕ}
    {dn : ℤ → ℤ} {h : ℤ → ℚ} (hW : 3 ≤ W)
    (hdesc : ∀ c d, recv c = some d → h (c + nshift W d) < h c)
    (hsupp : ∀ c, recv c ≠ none → InRect W 2 (H - 2) 2 (W - 2) c)
    (hnd : ∀ c, InRect W 1 (H - 1) 1 (W - 1) c →
      nd c = (donorList W recv c).length)
    (hdn : ∀ c, InRect W 1 (H - 1) 1 (W - 1) c →
      ∀ (k : ℕ) (hkl : k < (donorList W recv c).length),
        dn (8 * c + k) = (donorList W recv c).get ⟨k, hkl⟩) :
    ∃ e, (∀ j, j < e → levelL W H recv nd dn j ≠ []) ∧
      levelL W H recv nd dn e = [] ∧ e < W * H + 2 := by
  have hex : ∃ i, levelL W H recv nd dn i = [] :=
    ⟨(cellsRect W 2 (H - 2) 2 (W - 2)).length + 1,
      exists_empty_level hW hdesc hsupp hnd hdn⟩
  refine ⟨Nat.find hex, ?_, Nat.find_spec hex, ?_⟩
  · intro j hj
    exact Nat.find_min hex hj
  · have hle : Nat.find hex ≤ (cellsRect W 2 (H - 2) 2 (W - 2)).length + 1 :=
      Nat.find_min' hex (exists_empty_level hW hdesc hsupp hnd hdn)
    have hlen : (cellsRect W 2 (H - 2) 2 (W - 2)).length ≤ W * H := by
      rw [cellsRect_length]
      calc (H - 2 - 2) * (W - 2 - 2) ≤ H * W :=
            Nat.mul_le_mul ((Nat.sub_le (H - 2) 2).trans (Nat.sub_le H 2))
              ((Nat.sub_le (W - 2) 2).trans (Nat.sub_le W 2))
        _ = W * H := Nat.mul_comm _ _
    omega

/-! ## Claim C1 -/

/-- **C1 (amended).** After the Ordering stage of any step: each cell of the
seed region `[1..W-2] × [1..H-2]` appears in `stack` exactly once, and only
such cells appear (the outermost ring is absent); for every `c` in `stack`,
every donor of `c` appears at a strictly later position; and `levels` is
strictly increasing except for its final entry, which repeats the previous
one — the last two entries both equal `|stack|` (the loop records one empty
trailing level). -/
theorem C1_order_spec (W H : ℕ) (h : ℤ → ℚ)
    (rec0 : ℤ → Option (Fin 8)) (nd0 : ℤ → ℕ) (dn0 : ℤ → ℤ)
    (recv : ℤ → Option (Fin 8)) (nd : ℤ → ℕ) (dn : ℤ → ℤ)
    (hW : 4 ≤ W) (hH : 4 ≤ H)
    (hrec0 : ∀ c, ¬ InRect W 2 (H - 2) 2 (W - 2) c → rec0 c = none)
    (hrecv : recv = computeReceivers W H h rec0)
    (hnddn : (nd, dn) = computeDonors W H recv nd0 dn0) :
    ∃ stk lvls, generateOrder W H recv nd dn = some (stk, lvls) ∧
      (∀ c, c ∈ stk → InRect W 1 (H - 1) 1 (W - 1) c) ∧
      (∀ c, InRect W 1 (H - 1) 1 (W - 1) c → stk.count c = 1) ∧
      (∀ c, c ∈ stk → ∀ a, a ∈ donorList W recv c →
        a ∈ stk ∧ List.indexOf c stk < List.indexOf a stk) ∧
      2 ≤ lvls.length ∧
      List.Chain' (· < ·) lvls.dropLast ∧
      lvls.getD (lvls.length - 1) 0 = stk.length ∧
      lvls.getD (lvls.length - 2) 0 = stk.length := by
  have hW3 : 3 ≤ W := by omega
  have hdesc : ∀ c d, recv c = some d → h (c + nshift W d) < h c := by
    rw [hrecv]; exact computeReceivers_desc hrec0
  have hsupp : ∀ c, recv c ≠ none → InRect W 2 (H - 2) 2 (W - 2) c := by
    rw [hrecv]; exact computeReceivers_support hrec0
  have hnd1 : nd = (computeDonors W H recv nd0 dn0).1 := congrArg Prod.fst hnddn
  have hdn1 : dn = (computeDonors W H recv nd0 dn0).2 := congrArg Prod.snd hnddn
  have hfold : ∀ c : ℤ,
      ((computeDonors W H recv nd0 dn0).1 c =
        if c ∈ cellsRect W 1 (H - 1) 1 (W - 1)
        then (donorList W recv c).length else nd0 c) ∧
      (∀ k : ℕ, k < 8 → (computeDonors W H recv nd0 dn0).2 (8 * c + k) =
        if c ∈ cellsRect W 1 (H - 1) 1 (W - 1) ∧ k < (donorList W recv c).length
        then (donorList W recv c).getD k 0 else dn0 (8 * c + k)) :=
    fun c => donors_fold_spec W recv (cellsRect W 1 (H - 1) 1 (W - 1)) (nd0, dn0) c
  have hnd : ∀ c, InRect W 1 (H - 1) 1 (W - 1) c →
      nd c = (donorList W recv c).length := by
    intro c hc
    rw [hnd1, (hfold c).1, if_pos (mem_cellsRect.2 hc)]
  have hdn : ∀ c, InRect W 1 (H - 1) 1 (W - 1) c →
      ∀ (k : ℕ) (hkl : k < (donorList W recv c).length),
        dn (8 * c + k) = (donorList W recv c).get ⟨k, hkl⟩ := by
    intro c hc k hkl
    have hk8 : k < 8 := lt_of_lt_of_le hkl (donorList_length_le W recv c)
    rw [hdn1, (hfold c).2 k hk8, if_pos ⟨mem_cellsRect.2 hc, hkl⟩,
      getD_of_lt _ 0 k hkl, List.get_eq_getElem]
  obtain ⟨e, hne, hempty, hfuel⟩ := order_exists_e hW3 hdesc hsupp hnd hdn
  refine ⟨stackUpTo W H recv nd dn (e + 1), boundsUpTo W H recv nd dn e,
    generateOrder_run hne hempty hfuel, ?_, ?_, ?_, ?_, ?_, ?_, ?_⟩
  · -- only frame cells appear
    intro c hc
    obtain ⟨j, _, hj⟩ := mem_stackUpTo.1 hc
    exact (((levelL_spec hW3 hsupp hnd hdn j).2 c).1 hj).1
  · -- each frame cell appears exactly once
    intro c hc
    have hcover : c ∈ stackUpTo W H recv nd dn (e + 1) := by
      obtain ⟨k, _, t, ht, htn⟩ := chain_reaches_sink hdesc hsupp c
      have hck : c ∈ levelL W H recv nd dn k :=
        ((levelL_spec hW3 hsupp hnd hdn k).2 c).2 ⟨hc, t, ht, htn⟩
      have hke : k < e := by
        by_contra hge
        rw [level_empty_mono hempty k (by omega)] at hck
        exact absurd hck (List.not_mem_nil c)
      exact mem_stackUpTo.2 ⟨k, by omega, hck⟩
    exact List.count_eq_one_of_mem
      (stackUpTo_nodup hW3 hsupp hnd hdn (e + 1)) hcover
  · -- donors appear strictly later
    intro c hc a ha
    obtain ⟨k, hke1, hck⟩ := mem_stackUpTo.1 hc
    obtain ⟨hcf, hcs⟩ := ((levelL_spec hW3 hsupp hnd hdn k).2 c).1 hck
    obtain ⟨d, hd, hshift⟩ := mem_donorList.1 ha
    have haf : InRect W 1 (H - 1) 1 (W - 1) a :=
      frame_of_interior (hsupp a (by rw [hd]; simp))
    have has : SinkAt W recv (k + 1) a := by
      refine SinkAt_succ.2 ⟨d, hd, ?_⟩
      rw [hshift]; exact hcs
    have hak : a ∈ levelL W H recv nd dn (k + 1) :=
      ((levelL_spec hW3 hsupp hnd hdn (k + 1)).2 a).2 ⟨haf, has⟩
    have hk1e : k + 1 < e := by
      by_contra hge
      rw [level_empty_mono hempty (k + 1) (by omega)] at hak
      exact absurd hak (List.not_mem_nil a)
    have hastk : a ∈ stackUpTo W H recv nd dn (e + 1) :=
      mem_stackUpTo.2 ⟨k + 1, by omega, hak⟩
    refine ⟨hastk, ?_⟩
    have hsplit := @stackUpTo_split W H recv nd dn (e + 1) k (by omega)
    have hcA : c ∈ stackUpTo W H recv nd dn k :=
      mem_stackUpTo.2 ⟨k, le_rfl, hck⟩
    have haB : a ∈ (List.range' (k + 1) (e + 1 - k)).flatMap
        (levelL W H recv nd dn) := by
      rw [List.mem_flatMap]
      refine ⟨k + 1, ?_, hak⟩
      rw [List.mem_range']
      exact ⟨0, by omega, by omega⟩
    have hanA : a ∉ stackUpTo W H recv nd dn k := by
      intro hmem
      obtain ⟨j, hjk, haj⟩ := mem_stackUpTo.1 hmem
      obtain ⟨_, hsj⟩ := ((levelL_spec hW3 hsupp hnd hdn j).2 a).1 haj
      have : j = k + 1 := SinkAt_unique hsj has
      omega
    rw [hsplit, List.indexOf_append_of_mem hcA,
      List.indexOf_append_of_not_mem hanA]
    have : List.indexOf c (stackUpTo W H recv nd dn k) <
        (stackUpTo W H recv nd dn k).length :=
      List.indexOf_lt_length.2 hcA
    omega
  · -- at least two boundary entries
    rw [boundsUpTo_length]; omega
  · -- strictly increasing except for the trailing duplicate
    have hdl : (boundsUpTo W H recv nd dn e).dropLast =
        (List.range (e + 1)).map (preLen W H recv nd dn) := by
      unfold boundsUpTo
      rw [show e + 2 = (e + 1) + 1 by omega, List.range_succ, List.map_append]
      simp only [List.map_cons, List.map_nil]
      rw [List.dropLast_concat]
    rw [hdl, List.chain'_map]
    rw [List.chain'_iff_get]
    intro i hi
    simp only [List.length_range] at hi
    simp only [List.get_eq_getElem, List.getElem_range]
    rw [preLen_succ]
    have hpos : 0 < (levelL W H recv nd dn i).length :=
      List.length_pos.2 (hne i (by omega))
    omega
  · -- last entry equals |stack|
    rw [boundsUpTo_length, boundsUpTo_getD _ _ _ _ _ _ _ (by omega)]
    rw [show e + 2 - 1 = e + 1 by omega]
    rw [preLen_eq_length_stackUpTo, stackUpTo_succ]
    rw [show levelL W H recv nd dn (e + 1) =
      nextLevel nd dn (levelL W H recv nd dn e) from rfl, hempty]
    simp [nextLevel]
  · -- second-to-last entry also equals |stack|
    rw [boundsUpTo_length, boundsUpTo_getD _ _ _ _ _ _ _ (by omega)]
    rw [show e + 2 - 2 = e by omega]
    rw [stackUpTo_succ]
    rw [show levelL W H recv nd dn (e + 1) =
      nextLevel nd dn (levelL W H recv nd dn e) from rfl, hempty]
    have h1 : preLen W H recv nd dn (e + 1) = preLen W H recv nd dn e := by
      rw [preLen_succ, hempty]
      simp
    rw [← h1, preLen_eq_length_stackUpTo]
    simp [nextLevel]

/-- On a flat (all-zero) grid, `ComputeReceivers` marks everything
`NO_FLOW`. -/
theorem computeReceivers_flat (W H : ℕ) :
    computeReceivers W H (fun _ => 0) (fun _ => none) = fun _ => none := by
  funext c
  rw [computeReceivers_eq]
  split
  · apply recSweep_none_iff.2
    intro n
    simp [slope]
  · rfl

/-- Counterexample for C1 as stated: on the flat `5 × 5` grid the code
produces `levels = [0, 9, 9]`, which is not strictly increasing, and the
stack misses the edge cell `0`, so not every cell appears. -/
theorem C1_counterexample :
    ¬ (∀ stk lvls,
        generateOrder 5 5 (computeReceivers 5 5 (fun _ => 0) (fun _ => none))
          (computeDonors 5 5 (computeReceivers 5 5 (fun _ => 0) (fun _ => none))
            (fun _ => 0) (fun _ => 0)).1
          (computeDonors 5 5 (computeReceivers 5 5 (fun _ => 0) (fun _ => none))
            (fun _ => 0) (fun _ => 0)).2 = some (stk, lvls) →
        (∀ c, c ∈ gridCells 5 5 → stk.count c = 1) ∧
          List.Chain' (· < ·) lvls) := by
  rw [computeReceivers_flat]
  intro hcl
  obtain ⟨hcount, hchain⟩ := hcl [6, 7, 8, 11, 12, 13, 16, 17, 18] [0, 9, 9]
    (by decide)
  exact absurd hchain (by norm_num [List.chain'_cons])

/-- Witness for C1 (amended) at `W = H = 5`, flat zero elevations. -/
theorem C1_order_spec_witness :
    ∃ stk lvls,
      generateOrder 5 5 (computeReceivers 5 5 (fun _ => 0) (fun _ => none))
        (computeDonors 5 5 (computeReceivers 5 5 (fun _ => 0) (fun _ => none))
          (fun _ => 0) (fun _ => 0)).1
        (computeDonors 5 5 (computeReceivers 5 5 (fun _ => 0) (fun _ => none))
          (fun _ => 0) (fun _ => 0)).2 = some (stk, lvls) ∧
      (∀ c, c ∈ stk → InRect 5 1 4 1 4 c) ∧
      (∀ c, InRect 5 1 4 1 4 c → stk.count c = 1) ∧
      (∀ c, c ∈ stk →
        ∀ a, a ∈ donorList 5 (computeReceivers 5 5 (fun _ => 0) (fun _ => none)) c →
          a ∈ stk ∧ List.indexOf c stk < List.indexOf a stk) ∧
      2 ≤ lvls.length ∧
      List.Chain' (· < ·) lvls.dropLast ∧
      lvls.getD (lvls.length - 1) 0 = stk.length ∧
      lvls.getD (lvls.length - 2) 0 = stk.length :=
  C1_order_spec 5 5 (fun _ => 0) (fun _ => none) (fun _ => 0) (fun _ => 0)
    _ _ _ (by norm_num) (by norm_num) (fun _ _ => rfl) rfl rfl

/-! ## Reachability along receiver links -/

/-- `a`'s flow reaches `c` within `fuel` receiver links. -/
def reaches (W : ℕ) (recv : ℤ → Option (Fin 8)) : ℕ → ℤ → ℤ → Bool
  | 0, a, c => decide (a = c)
  | fuel + 1, a, c =>
    decide (a = c) ||
      (match recv a with
       | none => false
       | some d => reaches W recv fuel (a + nshift W d) c)

theorem reaches_iff {W : ℕ} {recv : ℤ → Option (Fin 8)} :
    ∀ {fuel : ℕ} {a c : ℤ}, reaches W recv fuel a c = true ↔
      ∃ k, k ≤ fuel ∧ recIter W recv k a = some c := by
  intro fuel
  induction fuel with
  | zero =>
    intro a c
    simp only [reaches, decide_eq_true_eq]
    constructor
    · rintro rfl; exact ⟨0, le_rfl, rfl⟩
    · rintro ⟨k, hk, hit⟩
      obtain rfl : k = 0 := by omega
      simpa [recIter] using hit
  | succ fuel ih =>
    intro a c
    simp only [reaches, Bool.or_eq_true, decide_eq_true_eq]
    constructor
    · rintro (rfl | hrest)
      · exact ⟨0, by omega, rfl⟩
      · cases ha : recv a with
        | none => rw [ha] at hrest; exact absurd hrest (by simp)
        | some d =>
          rw [ha] at hrest
          obtain ⟨k, hk, hit⟩ := ih.1 hrest
          refine ⟨k + 1, by omega, ?_⟩
          rw [show recIter W recv (k + 1) a =
            match recv a with
            | none => none
            | some d => recIter W recv k (a + nshift W d) from rfl, ha]
          exact hit
    · rintro ⟨k, hk, hit⟩
      cases k with
      | zero =>
        left
        simpa [recIter] using hit
      | succ k =>
        right
        rw [show recIter W recv (k + 1) a =
          match recv a with
          | none => none
          | some d => recIter W recv k (a + nshift W d) from rfl] at hit
        cases ha : recv a with
        | none => rw [ha] at hit; exact absurd hit (by simp)
        | some d =>
          rw [ha] at hit
          exact ih.2 ⟨k, by omega, hit⟩

/-- `a`'s flow reaches `c` by receiver links whose sources all lie in the
processed set `P` (the endpoint need not be in `P`). -/
inductive ReachVia (W : ℕ) (recv : ℤ → Option (Fin 8)) (P : List ℤ) :
    ℤ → ℤ → Prop
  | refl (c : ℤ) : ReachVia W recv P c c
  | step {a c : ℤ} {d : Fin 8} (ha : a ∈ P) (hd : recv a = some d)
      (h : ReachVia W recv P (a + nshift W d) c) : ReachVia W recv P a c

theorem ReachVia.mono {W : ℕ} {recv : ℤ → Option (Fin 8)} {P P' : List ℤ}
    (hPP : ∀ a, a ∈ P → a ∈ P') {a c : ℤ} (h : ReachVia W recv P a c) :
    ReachVia W recv P' a c := by
  induction h with
  | refl c => exact ReachVia.refl c
  | step ha hd _ ih => exact ReachVia.step (hPP _ ha) hd ih

theorem ReachVia.congr {W : ℕ} {recv : ℤ → Option (Fin 8)} {P P' : List ℤ}
    (hPP : ∀ a, a ∈ P ↔ a ∈ P') {a c : ℤ} :
    ReachVia W recv P a c ↔ ReachVia W recv P' a c :=
  ⟨ReachVia.mono (fun a ha => (hPP a).1 ha),
   ReachVia.mono (fun a ha => (hPP a).2 ha)⟩

/-- Append one receiver step at the end of a `ReachVia` path. -/
theorem ReachVia.snoc {W : ℕ} {recv : ℤ → Option (Fin 8)} {P : List ℤ}
    {a u : ℤ} {d : Fin 8} (h : ReachVia W recv P a u) (hu : u ∈ P)
    (hd : recv u = some d) : ReachVia W recv P a (u + nshift W d) := by
  induction h with
  | refl c => exact ReachVia.step hu hd (ReachVia.refl _)
  | step ha hd' _ ih => exact ReachVia.step ha hd' (ih hu hd)

/-- Receiver chains are deterministic: two `ReachVia` paths from the same
start whose endpoints both lie outside the processed set end at the same
cell. -/
theorem reachVia_det {W : ℕ} {recv : ℤ → Option (Fin 8)} {P : List ℤ} :
    ∀ {a c : ℤ}, ReachVia W recv P a c → c ∉ P →
      ∀ {x : ℤ}, ReachVia W recv P a x → x ∉ P → c = x := by
  intro a c h1
  induction h1 with
  | refl c =>
    intro hc x h2 hx
    cases h2 with
    | refl => rfl
    | step ha _ _ => exact absurd ha hc
  | @step a' c' d' ha hd h ih =>
    intro hc x h2 hx
    cases h2 with
    | refl => exact absurd ha hx
    | @step _ _ d2 ha2 hd2 h2' =>
      rw [hd] at hd2
      obtain rfl : d' = d2 := Option.some_injective _ hd2
      exact ih hc h2' hx

/-- Adding an unprocessed cell `u` to the processed set does not create new
paths into a target other than `u`'s receiver. -/
theorem reachVia_cons_ne {W : ℕ} {recv : ℤ → Option (Fin 8)} {P : List ℤ}
    {u r x : ℤ} {d : Fin 8} (hud : recv u = some d) (hr : u + nshift W d = r)
    (hru : r ≠ u) (hrP : r ∉ P) (hx : x ≠ r) {a : ℤ} :
    ReachVia W recv (u :: P) a x ↔ ReachVia W recv P a x := by
  constructor
  · intro h
    induction h with
    | refl c => exact ReachVia.refl c
    | @step a' c' d' ha hd h ih =>
      rcases List.mem_cons.1 ha with rfl | haP
      · -- the path would pass through u and hence through r ∉ u :: P
        rw [hud] at hd
        obtain rfl : d = d' := Option.some_injective _ hd
        rw [hr] at h
        exfalso
        cases h with
        | refl => exact hx rfl
        | step hr' _ _ =>
          rcases List.mem_cons.1 hr' with rfl | hrr
          · exact hru rfl
          · exact hrP hrr
      · exact ReachVia.step haP hd (ih hx)
  · exact ReachVia.mono (fun a ha => List.mem_cons_of_mem u ha)

/-- Adding `u` to the processed set: paths into `u`'s receiver `r` are the
old paths into `r` plus the old paths into `u` extended by one step. -/
theorem reachVia_cons_rec {W : ℕ} {recv : ℤ → Option (Fin 8)} {P : List ℤ}
    {u r : ℤ} {d : Fin 8} (hud : recv u = some d) (hr : u + nshift W d = r)
    {a : ℤ} :
    ReachVia W recv (u :: P) a r ↔
      ReachVia W recv P a r ∨ ReachVia W recv P a u := by
  constructor
  · intro h
    induction h with
    | refl c => exact Or.inl (ReachVia.refl c)
    | @step a' c' d' ha hd h ih =>
      rcases List.mem_cons.1 ha with rfl | haP
      · exact Or.inr (ReachVia.refl _)
      · rcases ih hr with h1 | h1
        · exact Or.inl (ReachVia.step haP hd h1)
        · exact Or.inr (ReachVia.step haP hd h1)
  · rintro (h | h)
    · exact h.mono (fun a ha => List.mem_cons_of_mem u ha)
    · rw [← hr]
      exact (h.mono (fun a ha => List.mem_cons_of_mem u ha)).snoc
        (List.mem_cons_self u P) hud

theorem reachVia_nil {W : ℕ} {recv : ℤ → Option (Fin 8)} {a x : ℤ} :
    ReachVia W recv [] a x ↔ a = x := by
  constructor
  · intro h
    cases h with
    | refl => rfl
    | step ha _ _ => exact absurd ha (List.not_mem_nil _)
  · rintro rfl
    exact ReachVia.refl a

/-- A cell cannot reach both `u` and `u`'s receiver through a processed set
that contains neither `u` nor the receiver. -/
theorem reachVia_not_both {W : ℕ} {recv : ℤ → Option (Fin 8)} {P : List ℤ}
    {u r : ℤ} (hru : r ≠ u) (hrP : r ∉ P) (huP : u ∉ P) {a : ℤ}
    (h1 : ReachVia W recv P a r) (h2 : ReachVia W recv P a u) : False :=
  hru (reachVia_det h1 hrP h2 huP)

/-! ## Counting flow sources -/

theorem countP_iff_congr {α : Type} (p q : α → Prop) :
    ∀ l : List α, (∀ a, a ∈ l → (p a ↔ q a)) →
      l.countP (fun a => @decide (p a) (Classical.propDecidable _)) =
        l.countP (fun a => @decide (q a) (Classical.propDecidable _)) := by
  intro l
  induction l with
  | nil => intro _; rfl
  | cons a l ih =>
    intro h
    simp only [List.countP_cons]
    rw [ih (fun b hb => h b (List.mem_cons_of_mem a hb))]
    by_cases hp : p a
    · simp [hp, (h a (List.mem_cons_self a l)).1 hp]
    · have hqn : ¬ q a := fun hq => hp ((h a (List.mem_cons_self a l)).2 hq)
      simp [hp, hqn]

theorem countP_or_split {α : Type} (p q : α → Prop) :
    ∀ l : List α, (∀ a, a ∈ l → ¬(p a ∧ q a)) →
      l.countP (fun a => @decide (p a ∨ q a) (Classical.propDecidable _)) =
        l.countP (fun a => @decide (p a) (Classical.propDecidable _)) +
          l.countP (fun a => @decide (q a) (Classical.propDecidable _)) := by
  intro l
  induction l with
  | nil => intro _; rfl
  | cons a l ih =>
    intro h
    simp only [List.countP_cons]
    rw [ih (fun b hb => h b (List.mem_cons_of_mem a hb))]
    by_cases hp : p a
    · have hq : ¬ q a := fun hq => h a (List.mem_cons_self a l) ⟨hp, hq⟩
      simp [hp, hq]
      omega
    · by_cases hq : q a
      · simp [hp, hq]
        omega
      · simp [hp, hq]

theorem countP_decide_bool {α : Type} (p : α → Prop) (q : α → Bool) :
    ∀ l : List α, (∀ a, a ∈ l → (p a ↔ q a = true)) →
      l.countP (fun a => @decide (p a) (Classical.propDecidable _)) =
        l.countP q := by
  intro l
  induction l with
  | nil => intro _; rfl
  | cons a l ih =>
    intro h
    simp only [List.countP_cons]
    rw [ih (fun b hb => h b (List.mem_cons_of_mem a hb))]
    cases hqa : q a with
    | true =>
      have hp : p a := (h a (List.mem_cons_self a l)).2 hqa
      simp [hp, hqa]
    | false =>
      have hp : ¬ p a := fun hpa =>
        absurd ((h a (List.mem_cons_self a l)).1 hpa) (by simp [hqa])
      simp [hp, hqa]

/-- The side conditions under which the flow-accumulation fold processes a
queue `Q` of cells, given the already-processed set `P`: each processed cell
is a fresh grid cell with a receiver, and neither the cell nor its receiver
was processed before it. -/
def OkQueue (W H : ℕ) (recv : ℤ → Option (Fin 8)) : List ℤ → List ℤ → Prop
  | _, [] => True
  | P, u :: Q =>
    u ∈ gridCells W H ∧ u ∉ P ∧
      (∃ d, recv u = some d ∧ u + nshift W d ≠ u ∧ u + nshift W d ∉ P) ∧
      OkQueue W H recv (u :: P) Q

/-- Invariant of the flow-accumulation fold: if `acc` holds `cell_area`
times the number of grid cells that reach each cell through the processed
set `P`, then after folding `accPush` over a queue `Q` it holds the same
with `Q`'s cells added to the processed set. -/
theorem accPush_fold_invariant (W H : ℕ) (recv : ℤ → Option (Fin 8)) :
    ∀ (Q P : List ℤ) (acc : ℤ → ℚ),
      OkQueue W H recv P Q →
      (∀ x, x ∈ gridCells W H →
        acc x = cell_area * ((gridCells W H).countP
          (fun a => @decide (ReachVia W recv P a x)
            (Classical.propDecidable _)) : ℚ)) →
      ∀ x, x ∈ gridCells W H →
        Q.foldl (accPush W recv) acc x = cell_area * ((gridCells W H).countP
          (fun a => @decide (ReachVia W recv (Q.reverse ++ P) a x)
            (Classical.propDecidable _)) : ℚ) := by
  intro Q
  induction Q with
  | nil =>
    intro P acc _ hinv x hx
    simpa using hinv x hx
  | cons u Q ih =>
    intro P acc hok hinv x hx
    obtain ⟨huG, huP, ⟨d, hud, hrne, hrP⟩, hok2⟩ := hok
    have hstep : ∀ y, y ∈ gridCells W H →
        accPush W recv acc u y = cell_area * ((gridCells W H).countP
          (fun a => @decide (ReachVia W recv (u :: P) a y)
            (Classical.propDecidable _)) : ℚ) := by
      intro y hy
      rw [show accPush W recv acc u =
        Function.update acc (u + nshift W d)
          (acc (u + nshift W d) + acc u) by simp only [accPush, hud]]
      by_cases hyr : y = u + nshift W d
      · rw [hyr, Function.update_same]
        rw [countP_iff_congr _ _ (gridCells W H)
          (fun a _ => reachVia_cons_rec hud rfl)]
        rw [countP_or_split _ _ (gridCells W H)
          (fun a _ hboth => reachVia_not_both hrne hrP huP hboth.1 hboth.2)]
        rw [hinv (u + nshift W d) (hyr ▸ hy), hinv u huG]
        push_cast
        ring
      · rw [Function.update_noteq hyr, hinv y hy,
          countP_iff_congr _ _ (gridCells W H)
            (fun a _ => reachVia_cons_ne hud rfl hrne hrP hyr)]
    have hfold := ih (u :: P) (accPush W recv acc u) hok2 hstep x hx
    have hsets : ∀ b, b ∈ Q.reverse ++ (u :: P) ↔ b ∈ (u :: Q).reverse ++ P := by
      intro b
      simp only [List.mem_append, List.mem_reverse, List.mem_cons,
        List.reverse_cons]
      tauto
    rw [List.foldl_cons, hfold,
      countP_iff_congr _ _ (gridCells W H)
        (fun a _ => ReachVia.congr hsets)]

theorem foldl_flatMap {α β γ : Type} (f : α → β → α) (g : γ → List β) :
    ∀ (l : List γ) (a : α),
      l.foldl (fun a c => (g c).foldl f a) a = (l.flatMap g).foldl f a := by
  intro l
  induction l with
  | nil => intro a; rfl
  | cons c l ih =>
    intro a
    rw [List.foldl_cons, ih, List.flatMap_cons, List.foldl_append]

theorem pairwise_flatMap_of {α β : Type} {R : β → β → Prop} (g : α → List β) :
    ∀ l : List α, (∀ a, a ∈ l → ∀ x, x ∈ g a → ∀ y, y ∈ g a → R x y) →
      List.Pairwise (fun a b => ∀ x, x ∈ g a → ∀ y, y ∈ g b → R x y) l →
      List.Pairwise R (l.flatMap g) := by
  intro l
  induction l with
  | nil => intro _ _; exact List.Pairwise.nil
  | cons a l ih =>
    intro hin hpw
    obtain ⟨hhead, htail⟩ := List.pairwise_cons.1 hpw
    rw [List.flatMap_cons, List.pairwise_append]
    refine ⟨?_, ih (fun b hb => hin b (List.mem_cons_of_mem a hb)) htail, ?_⟩
    · exact List.pairwise_of_forall_mem_list
        (fun x hx y hy => hin a (List.mem_cons_self a l) x hx y hy)
    · intro x hx y hy
      obtain ⟨b, hb, hyb⟩ := List.mem_flatMap.1 hy
      exact hhead b hb x hx y hyb

/-- Within the returned level structure, segment `li` of the stack is
exactly level `li`. -/
theorem segment_eq (W H : ℕ) (recv : ℤ → Option (Fin 8)) (nd : ℤ → ℕ)
    (dn : ℤ → ℤ) (e li : ℕ) (h1 : 1 ≤ li) (h2 : li ≤ e) :
    segment (stackUpTo W H recv nd dn (e + 1)) (boundsUpTo W H recv nd dn e)
        li = levelL W H recv nd dn li := by
  unfold segment
  rw [boundsUpTo_getD W H recv nd dn e li (by omega),
      boundsUpTo_getD W H recv nd dn e (li + 1) (by omega)]
  obtain ⟨m, rfl⟩ : ∃ m, li = m + 1 := ⟨li - 1, by omega⟩
  rw [preLen_succ W H recv nd dn (m + 1),
      preLen_eq_length_stackUpTo W H recv nd dn m,
      stackUpTo_split (e + 1) m (by omega), List.drop_left,
      Nat.add_sub_cancel_left,
      show e + 1 - m = (e - m) + 1 by omega, List.range'_succ (m + 1) (e - m) 1,
      List.flatMap_cons]
  exact List.take_left _ _

/-- A receiver chain that is still alive after `k` steps has not yet passed
its first sink. -/
theorem recIter_le_sink {W : ℕ} {recv : ℤ → Option (Fin 8)} {da k : ℕ}
    {a x : ℤ} (hs : SinkAt W recv da a) (hit : recIter W recv k a = some x) :
    k ≤ da := by
  by_contra hgt
  obtain ⟨t, ht, htn⟩ := hs
  have hsplit : recIter W recv (da + (k - da)) a =
      (recIter W recv da a).bind (recIter W recv (k - da)) :=
    recIter_add W recv _ _ _
  rw [show da + (k - da) = k by omega, hit, ht, Option.some_bind] at hsplit
  obtain ⟨m, hm⟩ : ∃ m, k - da = m + 1 := ⟨k - da - 1, by omega⟩
  rw [hm] at hsplit
  rw [show recIter W recv (m + 1) t =
    match recv t with
    | none => none
    | some d => recIter W recv m (t + nshift W d) from rfl, htn] at hsplit
  exact absurd hsplit (by simp)

/-- Construction of the fold side conditions: a duplicate-free queue of
frame cells with receivers, listed in weakly decreasing sink depth, all
deeper than anything already processed, is an `OkQueue`. -/
theorem okQueue_build {W H : ℕ} {recv : ℤ → Option (Fin 8)} :
    ∀ (Q P : List ℤ),
      Q.Nodup →
      (∀ u, u ∈ Q → u ∉ P) →
      (∀ u, u ∈ Q → u ∈ gridCells W H ∧ ∃ k, 1 ≤ k ∧ SinkAt W recv k u) →
      (∀ u, u ∈ Q → ∀ p, p ∈ P → ∀ ku kp, SinkAt W recv ku u →
        SinkAt W recv kp p → ku ≤ kp) →
      Q.Pairwise (fun a b => ∀ ka kb, SinkAt W recv ka a →
        SinkAt W recv kb b → kb ≤ ka) →
      OkQueue W H recv P Q := by
  intro Q
  induction Q with
  | nil => intro P _ _ _ _ _; trivial
  | cons u Q ih =>
    intro P hnd hQP hmem hdepth hpw
    obtain ⟨huG, k, hk1, hsk⟩ := hmem u (List.mem_cons_self u Q)
    obtain ⟨kr, rfl⟩ : ∃ kr, k = kr + 1 := ⟨k - 1, by omega⟩
    obtain ⟨d, hud, hskr⟩ := SinkAt_succ.1 hsk
    obtain ⟨hhead, htail⟩ := List.pairwise_cons.1 hpw
    have hnd2 := List.nodup_cons.1 hnd
    refine ⟨huG, hQP u (List.mem_cons_self u Q), ⟨d, hud, ?_, ?_⟩, ?_⟩
    · -- the receiver differs from the cell itself
      intro heq
      rw [heq] at hskr
      have := SinkAt_unique hskr hsk
      omega
    · -- the receiver was not processed earlier
      intro hrp
      have := hdepth u (List.mem_cons_self u Q) _ hrp (kr + 1) kr hsk hskr
      omega
    · refine ih (u :: P) hnd2.2 ?_ ?_ ?_ htail
      · intro v hv
        rw [List.mem_cons]
        rintro (rfl | hvP)
        · exact hnd2.1 hv
        · exact hQP v (List.mem_cons_of_mem u hv) hvP
      · exact fun v hv => hmem v (List.mem_cons_of_mem u hv)
      · intro v hv p hp kv kp hkv hkp
        rcases List.mem_cons.1 hp with rfl | hpP
        · exact hhead v hv kp kv hkp hkv
        · exact hdepth v (List.mem_cons_of_mem u hv) p hpP kv kp hkv hkp

/-- A restricted reachability path yields a plain receiver chain. -/
theorem reachVia_recIter {W : ℕ} {recv : ℤ → Option (Fin 8)} {P : List ℤ} :
    ∀ {a x : ℤ}, ReachVia W recv P a x →
      ∃ k, recIter W recv k a = some x := by
  intro a x hr
  induction hr with
  | refl c => exact ⟨0, rfl⟩
  | @step a' c' d' ha hd h ih =>
    obtain ⟨k, hk⟩ := ih
    refine ⟨k + 1, ?_⟩
    rw [show recIter W recv (k + 1) a' =
      match recv a' with
      | none => none
      | some d => recIter W recv k (a' + nshift W d) from rfl, hd]
    exact hk

/-- A plain receiver chain is a restricted reachability path, for any
processed set that contains every cell with a receiver. -/
theorem recIter_reachVia {W : ℕ} {recv : ℤ → Option (Fin 8)} {P : List ℤ}
    (hQ : ∀ u, recv u ≠ none → u ∈ P) :
    ∀ (k : ℕ) (a x : ℤ), recIter W recv k a = some x →
      ReachVia W recv P a x := by
  intro k
  induction k with
  | zero =>
    intro a x hit
    obtain rfl : a = x := by simpa [recIter] using hit
    exact ReachVia.refl a
  | succ k ih =>
    intro a x hit
    rw [show recIter W recv (k + 1) a =
      match recv a with
      | none => none
      | some d => recIter W recv k (a + nshift W d) from rfl] at hit
    cases ha : recv a with
    | none => rw [ha] at hit; exact absurd hit (by simp)
    | some d =>
      rw [ha] at hit
      exact ReachVia.step (hQ a (by rw [ha]; simp)) ha (ih _ _ hit)

/-- The flow-accumulation result, for any receiver field satisfying the
stage invariants: every grid cell ends with `cell_area` times the number of
grid cells whose receiver chain passes through it. -/
theorem flowAcc_master {W H : ℕ} {recv : ℤ → Option (Fin 8)} {nd : ℤ → ℕ}
    {dn : ℤ → ℤ} {h : ℤ → ℚ} (hW : 3 ≤ W)
    (hdesc : ∀ c d, recv c = some d → h (c + nshift W d) < h c)
    (hsupp : ∀ c, recv c ≠ none → InRect W 2 (H - 2) 2 (W - 2) c)
    (hnd : ∀ c, InRect W 1 (H - 1) 1 (W - 1) c →
      nd c = (donorList W recv c).length)
    (hdn : ∀ c, InRect W 1 (H - 1) 1 (W - 1) c →
      ∀ (k : ℕ) (hkl : k < (donorList W recv c).length),
        dn (8 * c + k) = (donorList W recv c).get ⟨k, hkl⟩)
    {stk : List ℤ} {lvls : List ℕ}
    (hord : generateOrder W H recv nd dn = some (stk, lvls)) :
    ∀ x, x ∈ gridCells W H →
      computeFlowAcc W recv stk lvls x =
        cell_area * ((gridCells W H).countP
          (fun a => reaches W recv (W * H) a x) : ℚ) := by
  obtain ⟨e, hne, hempty, hfuel⟩ := order_exists_e hW hdesc hsupp hnd hdn
  have hrun := generateOrder_run hne hempty hfuel
  rw [hord] at hrun
  have hpair := Option.some_injective _ hrun
  have hstk : stk = stackUpTo W H recv nd dn (e + 1) := congrArg Prod.fst hpair
  have hlvls : lvls = boundsUpTo W H recv nd dn e := congrArg Prod.snd hpair
  subst hstk
  subst hlvls
  -- membership in the processing queue
  have hQmem : ∀ u, u ∈ ((List.range' 1 e).reverse).flatMap
      (levelL W H recv nd dn) ↔
        ∃ j, 1 ≤ j ∧ j ≤ e ∧ u ∈ levelL W H recv nd dn j := by
    intro u
    rw [List.mem_flatMap]
    constructor
    · rintro ⟨j, hj, hu⟩
      rw [List.mem_reverse] at hj
      obtain ⟨i, hi, rfl⟩ := List.mem_range'.1 hj
      exact ⟨1 + 1 * i, by omega, by omega, hu⟩
    · rintro ⟨j, hj1, hj2, hu⟩
      refine ⟨j, ?_, hu⟩
      rw [List.mem_reverse]
      exact List.mem_range'.2 ⟨j - 1, by omega, by omega⟩
  -- every cell with a receiver is in the queue
  have hsinkmem : ∀ u, recv u ≠ none →
      u ∈ ((List.range' 1 e).reverse).flatMap (levelL W H recv nd dn) := by
    intro u hu
    obtain ⟨k, _, t, ht, htn⟩ := chain_reaches_sink hdesc hsupp u
    have hsk : SinkAt W recv k u := ⟨t, ht, htn⟩
    have huf : InRect W 1 (H - 1) 1 (W - 1) u :=
      frame_of_interior (hsupp u hu)
    have huk : u ∈ levelL W H recv nd dn k :=
      ((levelL_spec hW hsupp hnd hdn k).2 u).2 ⟨huf, hsk⟩
    have hk1 : 1 ≤ k := by
      rcases Nat.eq_zero_or_pos k with rfl | h1
      · exact absurd (SinkAt_zero.1 hsk) hu
      · exact h1
    have hke : k < e := by
      by_contra hge
      rw [level_empty_mono hempty k (by omega)] at huk
      exact absurd huk (List.not_mem_nil u)
    exact (hQmem u).2 ⟨k, hk1, by omega, huk⟩
  -- every cell's chain meets a sink within W*H links
  have hdepthall : ∀ a : ℤ, ∃ da, da ≤ W * H ∧ SinkAt W recv da a := by
    intro a
    obtain ⟨k, hkN, t, ht, htn⟩ := chain_reaches_sink hdesc hsupp a
    refine ⟨k, ?_, t, ht, htn⟩
    calc k ≤ (cellsRect W 2 (H - 2) 2 (W - 2)).length := hkN
      _ = (H - 2 - 2) * (W - 2 - 2) := cellsRect_length W 2 (H - 2) 2 (W - 2)
      _ ≤ H * W :=
          Nat.mul_le_mul ((Nat.sub_le (H - 2) 2).trans (Nat.sub_le H 2))
            ((Nat.sub_le (W - 2) 2).trans (Nat.sub_le W 2))
      _ = W * H := Nat.mul_comm H W
  -- reachability through the whole queue is plain fueled reachability
  have hiff : ∀ a x : ℤ,
      ReachVia W recv (((List.range' 1 e).reverse).flatMap
        (levelL W H recv nd dn)) a x ↔
        reaches W recv (W * H) a x = true := by
    intro a x
    rw [reaches_iff]
    constructor
    · intro hr
      obtain ⟨k, hk⟩ := reachVia_recIter hr
      obtain ⟨da, hda, hsa⟩ := hdepthall a
      exact ⟨k, (recIter_le_sink hsa hk).trans hda, hk⟩
    · rintro ⟨k, _, hk⟩
      exact recIter_reachVia hsinkmem k a x hk
  -- the queue satisfies the fold side conditions
  have hQnodup : (((List.range' 1 e).reverse).flatMap
      (levelL W H recv nd dn)).Nodup := by
    rw [List.nodup_flatMap]
    refine ⟨fun j _ => (levelL_spec hW hsupp hnd hdn j).1, ?_⟩
    refine List.Pairwise.imp_of_mem ?_
      ((List.nodup_reverse).2 (List.nodup_range' _ _))
    intro j j' _ _ hne2 a haj haj'
    obtain ⟨_, hsj⟩ := ((levelL_spec hW hsupp hnd hdn j).2 a).1 haj
    obtain ⟨_, hsj'⟩ := ((levelL_spec hW hsupp hnd hdn j').2 a).1 haj'
    exact hne2 (SinkAt_unique hsj hsj')
  have hQok : OkQueue W H recv []
      (((List.range' 1 e).reverse).flatMap (levelL W H recv nd dn)) := by
    refine okQueue_build _ [] hQnodup
      (fun u _ => List.not_mem_nil u) ?_
      (fun u _ p hp => absurd hp (List.not_mem_nil p)) ?_
    · intro u hu
      obtain ⟨j, hj1, hj2, huj⟩ := (hQmem u).1 hu
      obtain ⟨hfr, hsj⟩ := ((levelL_spec hW hsupp hnd hdn j).2 u).1 huj
      exact ⟨mem_cellsRect.2 (grid_of_frame hfr), j, hj1, hsj⟩
    · refine pairwise_flatMap_of _ _ ?_ ?_
      · intro j _ x hx y hy ka kb hka hkb
        obtain ⟨_, hsx⟩ := ((levelL_spec hW hsupp hnd hdn j).2 x).1 hx
        obtain ⟨_, hsy⟩ := ((levelL_spec hW hsupp hnd hdn j).2 y).1 hy
        have h1 := SinkAt_unique hka hsx
        have h2 := SinkAt_unique hkb hsy
        omega
      · have hrev : List.Pairwise (fun j j' : ℕ => j' < j)
            ((List.range' 1 e).reverse) := by
          rw [List.pairwise_reverse]
          exact List.pairwise_lt_range' 1 e
        refine hrev.imp ?_
        intro j j' hjj x hx y hy ka kb hka hkb
        obtain ⟨_, hsx⟩ := ((levelL_spec hW hsupp hnd hdn j).2 x).1 hx
        obtain ⟨_, hsy⟩ := ((levelL_spec hW hsupp hnd hdn j').2 y).1 hy
        have h1 := SinkAt_unique hka hsx
        have h2 := SinkAt_unique hkb hsy
        omega
  -- the base invariant: everything starts at cell_area
  have hbase : ∀ x, x ∈ gridCells W H →
      (fun _ : ℤ => (cell_area : ℚ)) x = cell_area * ((gridCells W H).countP
        (fun a => @decide (ReachVia W recv [] a x)
          (Classical.propDecidable _)) : ℚ) := by
    intro x hx
    rw [countP_decide_bool _ (fun a => a == x) (gridCells W H)
      (fun a _ => reachVia_nil.trans beq_iff_eq.symm)]
    rw [show (gridCells W H).countP (fun a => a == x) =
      (gridCells W H).count x from rfl]
    rw [List.count_eq_one_of_mem
      (show (gridCells W H).Nodup from cellsRect_nodup le_rfl) hx]
    norm_num
  intro x hx
  -- the accumulation fold is the fold of `accPush` over the queue
  have hCF : computeFlowAcc W recv (stackUpTo W H recv nd dn (e + 1))
      (boundsUpTo W H recv nd dn e) =
        (((List.range' 1 e).reverse).flatMap
          (levelL W H recv nd dn)).foldl (accPush W recv)
          (fun _ => cell_area) := by
    unfold computeFlowAcc
    rw [boundsUpTo_length, show e + 2 - 2 = e by omega]
    calc ((List.range' 1 e).reverse).foldl
          (fun a li => (segment (stackUpTo W H recv nd dn (e + 1))
            (boundsUpTo W H recv nd dn e) li).foldl (accPush W recv) a)
          (fun _ => cell_area)
        = ((List.range' 1 e).reverse).foldl
            (fun a li => (levelL W H recv nd dn li).foldl
              (accPush W recv) a) (fun _ => cell_area) := by
          refine List.foldl_ext _ _ _ ?_
          intro acc li hli
          rw [List.mem_reverse] at hli
          obtain ⟨i, hi, rfl⟩ := List.mem_range'.1 hli
          rw [segment_eq W H recv nd dn e (1 + 1 * i) (by omega) (by omega)]
      _ = (((List.range' 1 e).reverse).flatMap
            (levelL W H recv nd dn)).foldl (accPush W recv)
            (fun _ => cell_area) :=
          foldl_flatMap (accPush W recv) (levelL W H recv nd dn) _ _
  have hinv := accPush_fold_invariant W H recv
    (((List.range' 1 e).reverse).flatMap (levelL W H recv nd dn)) []
    (fun _ => cell_area) hQok hbase x hx
  rw [hCF, hinv]
  have hsets : ∀ b : ℤ,
      b ∈ (((List.range' 1 e).reverse).flatMap
        (levelL W H recv nd dn)).reverse ++ ([] : List ℤ) ↔
        b ∈ ((List.range' 1 e).reverse).flatMap (levelL W H recv nd dn) := by
    intro b; simp
  rw [countP_iff_congr _ _ (gridCells W H)
    (fun a _ => ReachVia.congr hsets)]
  rw [countP_decide_bool _ _ (gridCells W H) (fun a _ => hiff a x)]

/-! ## Claim C4 -/

/-- **C4.** After the Accumulation stage of any step, every grid cell's
`accum` equals `cell_area` times the number of grid cells whose flow
ultimately reaches it by following receiver links, counting the cell
itself. -/
theorem C4_flow_accumulation (W H : ℕ) (h : ℤ → ℚ)
    (rec0 : ℤ → Option (Fin 8)) (nd0 : ℤ → ℕ) (dn0 : ℤ → ℤ)
    (recv : ℤ → Option (Fin 8)) (nd : ℤ → ℕ) (dn : ℤ → ℤ)
    (stk : List ℤ) (lvls : List ℕ)
    (hW : 4 ≤ W) (hH : 4 ≤ H)
    (hrec0 : ∀ c, ¬ InRect W 2 (H - 2) 2 (W - 2) c → rec0 c = none)
    (hrecv : recv = computeReceivers W H h rec0)
    (hnddn : (nd, dn) = computeDonors W H recv nd0 dn0)
    (hord : generateOrder W H recv nd dn = some (stk, lvls)) :
    ∀ x, x ∈ gridCells W H →
      computeFlowAcc W recv stk lvls x =
        cell_area * ((gridCells W H).countP
          (fun a => reaches W recv (W * H) a x) : ℚ) := by
  have hW3 : 3 ≤ W := by omega
  have hdesc : ∀ c d, recv c = some d → h (c + nshift W d) < h c := by
    rw [hrecv]; exact computeReceivers_desc hrec0
  have hsupp : ∀ c, recv c ≠ none → InRect W 2 (H - 2) 2 (W - 2) c := by
    rw [hrecv]; exact computeReceivers_support hrec0
  have hnd1 : nd = (computeDonors W H recv nd0 dn0).1 := congrArg Prod.fst hnddn
  have hdn1 : dn = (computeDonors W H recv nd0 dn0).2 := congrArg Prod.snd hnddn
  have hfold : ∀ c : ℤ,
      ((computeDonors W H recv nd0 dn0).1 c =
        if c ∈ cellsRect W 1 (H - 1) 1 (W - 1)
        then (donorList W recv c).length else nd0 c) ∧
      (∀ k : ℕ, k < 8 → (computeDonors W H recv nd0 dn0).2 (8 * c + k) =
        if c ∈ cellsRect W 1 (H - 1) 1 (W - 1) ∧ k < (donorList W recv c).length
        then (donorList W recv c).getD k 0 else dn0 (8 * c + k)) :=
    fun c => donors_fold_spec W recv (cellsRect W 1 (H - 1) 1 (W - 1)) (nd0, dn0) c
  have hnd : ∀ c, InRect W 1 (H - 1) 1 (W - 1) c →
      nd c = (donorList W recv c).length := by
    intro c hc
    rw [hnd1, (hfold c).1, if_pos (mem_cellsRect.2 hc)]
  have hdn : ∀ c, InRect W 1 (H - 1) 1 (W - 1) c →
      ∀ (k : ℕ) (hkl : k < (donorList W recv c).length),
        dn (8 * c + k) = (donorList W recv c).get ⟨k, hkl⟩ := by
    intro c hc k hkl
    have hk8 : k < 8 := lt_of_lt_of_le hkl (donorList_length_le W recv c)
    rw [hdn1, (hfold c).2 k hk8, if_pos ⟨mem_cellsRect.2 hc, hkl⟩,
      getD_of_lt _ 0 k hkl, List.get_eq_getElem]
  exact flowAcc_master hW3 hdesc hsupp hnd hdn hord

/-- Witness for C4 at `W = H = 5`, flat zero elevations, at cell 12: no
cell has a receiver, so every accumulation stays at one cell's area. -/
theorem C4_flow_accumulation_witness :
    computeFlowAcc 5 (computeReceivers 5 5 (fun _ => 0) (fun _ => none))
      [6, 7, 8, 11, 12, 13, 16, 17, 18] [0, 9, 9] 12 =
      cell_area * (((gridCells 5 5).countP
        (fun a => reaches 5
          (computeReceivers 5 5 (fun _ => 0) (fun _ => none))
          (5 * 5) a 12)) : ℚ) :=
  C4_flow_accumulation 5 5 (fun _ => 0) (fun _ => none) (fun _ => 0)
    (fun _ => 0) (computeReceivers 5 5 (fun _ => 0) (fun _ => none))
    (computeDonors 5 5 (computeReceivers 5 5 (fun _ => 0) (fun _ => none))
      (fun _ => 0) (fun _ => 0)).1
    (computeDonors 5 5 (computeReceivers 5 5 (fun _ => 0) (fun _ => none))
      (fun _ => 0) (fun _ => 0)).2
    [6, 7, 8, 11, 12, 13, 16, 17, 18] [0, 9, 9]
    (by norm_num) (by norm_num) (fun _ _ => rfl) rfl rfl
    (by rw [computeReceivers_flat]; decide) 12 (by decide)

/-! ## Claim C7 -/

/-- `AddUplift` pointwise: interior cells gain `ueq * dt`, others are
untouched. -/
theorem addUplift_eq (W H : ℕ) (h : ℤ → ℚ) (c : ℤ) :
    addUplift W H h c =
      if c ∈ cellsRect W 2 (H - 2) 2 (W - 2) then h c + ueq * dt else h c := by
  unfold addUplift
  exact foldl_update_self (fun v => v + ueq * dt)
    (cellsRect W 2 (H - 2) 2 (W - 2)) (cellsRect_nodup (by omega)) h c

/-- `Erode` is a no-op when no cell has a receiver. -/
theorem erode_noflow (W : ℕ) (powm : ℚ → ℚ) (nfuel : ℕ) (accum : ℤ → ℚ)
    (stk : List ℤ) (lvls : List ℕ) (h : ℤ → ℚ) :
    erode W powm nfuel (fun _ => none) accum stk lvls h = h := by
  have hseg : ∀ (l : List ℤ) (h : ℤ → ℚ),
      l.foldl (fun h c => erodeCell W powm nfuel (fun _ => none) accum h c)
        h = h := by
    intro l
    induction l with
    | nil => intro h; rfl
    | cons a l ih => intro h; rw [List.foldl_cons]; exact ih h
  unfold erode
  generalize List.range (lvls.length - 1) = ls
  induction ls generalizing h with
  | nil => rfl
  | cons li ls ih => rw [List.foldl_cons, hseg]; exact ih h

/-- Folding a constant-step function over a list iterates it once per
element. -/
theorem foldl_const_iterate {α β : Type} (f : β → β) :
    ∀ (l : List α) (s : β), l.foldl (fun s _ => f s) s = f^[l.length] s := by
  intro l
  induction l with
  | nil => intro s; rfl
  | cons a l ih =>
    intro s
    rw [List.foldl_cons, ih, List.length_cons, Function.iterate_succ_apply]

/-- **C7 (amended).** The step loop `for(step = 0; step <= nstep; step++)`
executes the six-stage pipeline exactly `nstep + 1` times — one more than
the `<steps>` argument — before the final grid is written. -/
theorem C7_step_count (W H : ℕ) (powm : ℚ → ℚ) (nfuel : ℕ) (nstep : ℤ)
    (hn : 0 ≤ nstep) (s : FState) :
    runLoop W H powm nfuel nstep s =
      (fun t => doStep W H powm nfuel t)^[nstep.toNat + 1] s := by
  unfold runLoop
  rw [foldl_const_iterate]
  congr 1
  simp only [stepsList, List.length_map, List.length_range]
  omega

/-- Witness for C7 at `nstep = 0` on a flat 5×5 state. -/
theorem C7_step_count_witness :
    runLoop 5 5 (fun q => q) 1 0
        ⟨fun _ => 0, fun _ => 0, fun _ => none, fun _ => 0, fun _ => 0⟩ =
      (fun t => doStep 5 5 (fun q => q) 1 t)^[(0 : ℤ).toNat + 1]
        ⟨fun _ => 0, fun _ => 0, fun _ => none, fun _ => 0, fun _ => 0⟩ :=
  C7_step_count 5 5 (fun q => q) 1 0 (by norm_num) _

/-- Counterexample to C7 as stated: with `<steps> = 0` the pipeline would
run zero times and leave the state unchanged, but the loop `step <= nstep`
still runs it once — the flat 5×5 grid's centre cell gains the uplift
`ueq * dt = 2`. -/
theorem C7_counterexample :
    (runLoop 5 5 (fun q => q) 1 0
      ⟨fun _ => 0, fun _ => 0, fun _ => none, fun _ => 0, fun _ => 0⟩).h 12 ≠
      (⟨fun _ => 0, fun _ => 0, fun _ => none, fun _ => 0, fun _ => 0⟩ :
        FState).h 12 := by
  have h1 : runLoop 5 5 (fun q => q) 1 0
      ⟨fun _ => 0, fun _ => 0, fun _ => none, fun _ => 0, fun _ => 0⟩ =
      doStep 5 5 (fun q => q) 1
        ⟨fun _ => 0, fun _ => 0, fun _ => none, fun _ => 0, fun _ => 0⟩ := rfl
  rw [h1]
  have hstep : (doStep 5 5 (fun q => q) 1
      ⟨fun _ => 0, fun _ => 0, fun _ => none, fun _ => 0, fun _ => 0⟩).h =
      addUplift 5 5 (fun _ => 0) := by
    simp only [doStep]
    rw [computeReceivers_flat]
    exact erode_noflow 5 (fun q => q) 1 _ _ _ _
  rw [hstep, addUplift_eq, if_pos (by decide)]
  norm_num [ueq, dt]

/-! ## Claim C8 -/

/-- If the very first scanned direction has positive slope at least as
steep as every other, the sweep returns it. -/
theorem recSweep_first_max {W : ℕ} {h : ℤ → ℚ} {c : ℤ}
    (h0 : 0 < slope W h c 0)
    (hmax : ∀ d : Fin 8, d ≠ 0 → slope W h c d ≤ slope W h c 0) :
    recSweep W h c = some 0 := by
  have hstep : ∀ d : Fin 8, d ≠ 0 →
      recScanStep W h c (slope W h c 0, some 0) d =
        (slope W h c 0, some 0) := by
    intro d hd
    unfold recScanStep
    exact if_neg (not_lt.2 (hmax d hd))
  show ((List.finRange 8).foldl (recScanStep W h c) (0, none)).2 = some 0
  rw [show List.finRange 8 = [0, 1, 2, 3, 4, 5, 6, 7] by decide]
  simp only [List.foldl_cons, List.foldl_nil]
  rw [show recScanStep W h c (0, none) 0 = (slope W h c 0, some 0) by
        unfold recScanStep; rw [if_pos (by simpa using h0)],
      hstep 1 (by decide), hstep 2 (by decide), hstep 3 (by decide),
      hstep 4 (by decide), hstep 5 (by decide), hstep 6 (by decide),
      hstep 7 (by decide)]

/-- On the 10×10 linear ramp `h[y,x] = x`, `ComputeReceivers` gives every
interior cell the left neighbour (direction 0) and leaves every other
cell — including the non-halo ring — at `NO_FLOW`. -/
theorem computeReceivers_ramp :
    computeReceivers 10 10 (fun a => ((a % 10 : ℤ) : ℚ)) (fun _ => none) =
      fun c => if c ∈ cellsRect 10 2 8 2 8 then some (0 : Fin 8) else none := by
  funext c
  rw [computeReceivers_eq]
  simp only [show (10 : ℕ) - 2 = 8 from rfl]
  by_cases hc : c ∈ cellsRect 10 2 8 2 8
  · rw [if_pos hc, if_pos hc]
    obtain ⟨y, x, hy0, hy1, hx0, hx1, rfl⟩ := mem_cellsRect.1 hc
    have hs0 : slope 10 (fun a => ((a % 10 : ℤ) : ℚ))
        ((y * 10 + x : ℕ) : ℤ) 0 = 1 := by
      simp only [slope]
      rw [show nshift 10 (0 : Fin 8) = -1 by decide,
          show dr (0 : Fin 8) = 1 from rfl,
          show (((y * 10 + x : ℕ) : ℤ)) % 10 = (x : ℤ) by push_cast; omega,
          show ((((y * 10 + x : ℕ) : ℤ)) + -1) % 10 = (x : ℤ) - 1 by
            push_cast; omega]
      push_cast
      ring
    have hs1 : slope 10 (fun a => ((a % 10 : ℤ) : ℚ))
        ((y * 10 + x : ℕ) : ℤ) 1 = 1 / SQRT2 := by
      simp only [slope]
      rw [show nshift 10 (1 : Fin 8) = -11 by decide,
          show dr (1 : Fin 8) = SQRT2 from rfl,
          show (((y * 10 + x : ℕ) : ℤ)) % 10 = (x : ℤ) by push_cast; omega,
          show ((((y * 10 + x : ℕ) : ℤ)) + -11) % 10 = (x : ℤ) - 1 by
            push_cast; omega]
      push_cast
      ring
    have hs2 : slope 10 (fun a => ((a % 10 : ℤ) : ℚ))
        ((y * 10 + x : ℕ) : ℤ) 2 = 0 := by
      simp only [slope]
      rw [show nshift 10 (2 : Fin 8) = -10 by decide,
          show (((y * 10 + x : ℕ) : ℤ)) % 10 = (x : ℤ) by push_cast; omega,
          show ((((y * 10 + x : ℕ) : ℤ)) + -10) % 10 = (x : ℤ) by
            push_cast; omega]
      ring
    have hs3 : slope 10 (fun a => ((a % 10 : ℤ) : ℚ))
        ((y * 10 + x : ℕ) : ℤ) 3 = -(1 / SQRT2) := by
      simp only [slope]
      rw [show nshift 10 (3 : Fin 8) = -9 by decide,
          show dr (3 : Fin 8) = SQRT2 from rfl,
          show (((y * 10 + x : ℕ) : ℤ)) % 10 = (x : ℤ) by push_cast; omega,
          show ((((y * 10 + x : ℕ) : ℤ)) + -9) % 10 = (x : ℤ) + 1 by
            push_cast; omega]
      push_cast
      ring
    have hs4 : slope 10 (fun a => ((a % 10 : ℤ) : ℚ))
        ((y * 10 + x : ℕ) : ℤ) 4 = -1 := by
      simp only [slope]
      rw [show nshift 10 (4 : Fin 8) = 1 by decide,
          show dr (4 : Fin 8) = 1 from rfl,
          show (((y * 10 + x : ℕ) : ℤ)) % 10 = (x : ℤ) by push_cast; omega,
          show ((((y * 10 + x : ℕ) : ℤ)) + 1) % 10 = (x : ℤ) + 1 by
            push_cast; omega]
      push_cast
      ring
    have hs5 : slope 10 (fun a => ((a % 10 : ℤ) : ℚ))
        ((y * 10 + x : ℕ) : ℤ) 5 = -(1 / SQRT2) := by
      simp only [slope]
      rw [show nshift 10 (5 : Fin 8) = 11 by decide,
          show dr (5 : Fin 8) = SQRT2 from rfl,
          show (((y * 10 + x : ℕ) : ℤ)) % 10 = (x : ℤ) by push_cast; omega,
          show ((((y * 10 + x : ℕ) : ℤ)) + 11) % 10 = (x : ℤ) + 1 by
            push_cast; omega]
      push_cast
      ring
    have hs6 : slope 10 (fun a => ((a % 10 : ℤ) : ℚ))
        ((y * 10 + x : ℕ) : ℤ) 6 = 0 := by
      simp only [slope]
      rw [show nshift 10 (6 : Fin 8) = 10 by decide,
          show (((y * 10 + x : ℕ) : ℤ)) % 10 = (x : ℤ) by push_cast; omega,
          show ((((y * 10 + x : ℕ) : ℤ)) + 10) % 10 = (x : ℤ) by
            push_cast; omega]
      ring
    have hs7 : slope 10 (fun a => ((a % 10 : ℤ) : ℚ))
        ((y * 10 + x : ℕ) : ℤ) 7 = 1 / SQRT2 := by
      simp only [slope]
      rw [show nshift 10 (7 : Fin 8) = 9 by decide,
          show dr (7 : Fin 8) = SQRT2 from rfl,
          show (((y * 10 + x : ℕ) : ℤ)) % 10 = (x : ℤ) by push_cast; omega,
          show ((((y * 10 + x : ℕ) : ℤ)) + 9) % 10 = (x : ℤ) - 1 by
            push_cast; omega]
      push_cast
      ring
    have hrt : (0 : ℚ) < 1 / SQRT2 ∧ 1 / SQRT2 ≤ 1 := by
      rw [SQRT2]; norm_num
    have hle1 : slope 10 (fun a => ((a % 10 : ℤ) : ℚ))
        ((y * 10 + x : ℕ) : ℤ) 1 ≤ slope 10 (fun a => ((a % 10 : ℤ) : ℚ))
        ((y * 10 + x : ℕ) : ℤ) 0 := by rw [hs1, hs0]; exact hrt.2
    have hle2 : slope 10 (fun a => ((a % 10 : ℤ) : ℚ))
        ((y * 10 + x : ℕ) : ℤ) 2 ≤ slope 10 (fun a => ((a % 10 : ℤ) : ℚ))
        ((y * 10 + x : ℕ) : ℤ) 0 := by rw [hs2, hs0]; norm_num
    have hle3 : slope 10 (fun a => ((a % 10 : ℤ) : ℚ))
        ((y * 10 + x : ℕ) : ℤ) 3 ≤ slope 10 (fun a => ((a % 10 : ℤ) : ℚ))
        ((y * 10 + x : ℕ) : ℤ) 0 := by
      rw [hs3, hs0]
      have := hrt.1
      linarith
    have hle4 : slope 10 (fun a => ((a % 10 : ℤ) : ℚ))
        ((y * 10 + x : ℕ) : ℤ) 4 ≤ slope 10 (fun a => ((a % 10 : ℤ) : ℚ))
        ((y * 10 + x : ℕ) : ℤ) 0 := by rw [hs4, hs0]; norm_num
    have hle5 : slope 10 (fun a => ((a % 10 : ℤ) : ℚ))
        ((y * 10 + x : ℕ) : ℤ) 5 ≤ slope 10 (fun a => ((a % 10 : ℤ) : ℚ))
        ((y * 10 + x : ℕ) : ℤ) 0 := by
      rw [hs5, hs0]
      have := hrt.1
      linarith
    have hle6 : slope 10 (fun a => ((a % 10 : ℤ) : ℚ))
        ((y * 10 + x : ℕ) : ℤ) 6 ≤ slope 10 (fun a => ((a % 10 : ℤ) : ℚ))
        ((y * 10 + x : ℕ) : ℤ) 0 := by rw [hs6, hs0]; norm_num
    have hle7 : slope 10 (fun a => ((a % 10 : ℤ) : ℚ))
        ((y * 10 + x : ℕ) : ℤ) 7 ≤ slope 10 (fun a => ((a % 10 : ℤ) : ℚ))
        ((y * 10 + x : ℕ) : ℤ) 0 := by
      rw [hs7, hs0]
      exact hrt.2
    apply recSweep_first_max
    · rw [hs0]; norm_num
    · intro d hd
      fin_cases d
      · exact absurd rfl hd
      · exact hle1
      · exact hle2
      · exact hle3
      · exact hle4
      · exact hle5
      · exact hle6
      · exact hle7
  · rw [if_neg hc, if_neg hc]

/-- The ramp receiver field in coordinate arithmetic (`y = c / 10`,
`x = c % 10`). -/
theorem ramp_recv_arith :
    (fun c : ℤ =>
      if c ∈ cellsRect 10 2 8 2 8 then some (0 : Fin 8) else none) =
      fun b : ℤ => if 2 ≤ b / 10 ∧ b / 10 < 8 ∧ 2 ≤ b % 10 ∧ b % 10 < 8
        then some (0 : Fin 8) else none := by
  funext c
  by_cases hc : c ∈ cellsRect 10 2 8 2 8
  · have harith : 2 ≤ c / 10 ∧ c / 10 < 8 ∧ 2 ≤ c % 10 ∧ c % 10 < 8 := by
      obtain ⟨y, x, hy0, hy1, hx0, hx1, rfl⟩ := mem_cellsRect.1 hc
      refine ⟨?_, ?_, ?_, ?_⟩ <;> (push_cast; omega)
    rw [if_pos hc, if_pos harith]
  · have harith : ¬ (2 ≤ c / 10 ∧ c / 10 < 8 ∧ 2 ≤ c % 10 ∧ c % 10 < 8) := by
      intro hA
      apply hc
      apply mem_cellsRect.2
      exact ⟨(c / 10).toNat, (c % 10).toNat, by omega, by omega, by omega,
        by omega, by push_cast; omega⟩
    rw [if_neg hc, if_neg harith]

/-- The donor counters written by `ComputeDonors`, for any receiver
field. -/
theorem computeDonors_nd (W H : ℕ) (recv : ℤ → Option (Fin 8))
    (nd0 : ℤ → ℕ) (dn0 : ℤ → ℤ) :
    ∀ c, InRect W 1 (H - 1) 1 (W - 1) c →
      (computeDonors W H recv nd0 dn0).1 c = (donorList W recv c).length := by
  intro c hc
  have h1 : (computeDonors W H recv nd0 dn0).1 c =
      if c ∈ cellsRect W 1 (H - 1) 1 (W - 1)
      then (donorList W recv c).length else nd0 c :=
    (donors_fold_spec W recv (cellsRect W 1 (H - 1) 1 (W - 1)) (nd0, dn0) c).1
  rw [h1, if_pos (mem_cellsRect.2 hc)]

/-- The donor slots written by `ComputeDonors`, for any receiver field. -/
theorem computeDonors_dn (W H : ℕ) (recv : ℤ → Option (Fin 8))
    (nd0 : ℤ → ℕ) (dn0 : ℤ → ℤ) :
    ∀ c, InRect W 1 (H - 1) 1 (W - 1) c →
      ∀ (k : ℕ) (hkl : k < (donorList W recv c).length),
        (computeDonors W H recv nd0 dn0).2 (8 * c + k) =
          (donorList W recv c).get ⟨k, hkl⟩ := by
  intro c hc k hkl
  have hk8 : k < 8 := lt_of_lt_of_le hkl (donorList_length_le W recv c)
  have h2 : (computeDonors W H recv nd0 dn0).2 (8 * c + k) =
      if c ∈ cellsRect W 1 (H - 1) 1 (W - 1) ∧ k < (donorList W recv c).length
      then (donorList W recv c).getD k 0 else dn0 (8 * c + k) :=
    (donors_fold_spec W recv (cellsRect W 1 (H - 1) 1 (W - 1))
      (nd0, dn0) c).2 k hk8
  rw [h2, if_pos ⟨mem_cellsRect.2 hc, hkl⟩,
    getD_of_lt _ 0 k hkl, List.get_eq_getElem]

/-- The ramp receiver field descends along the ramp elevations. -/
theorem rampR_desc : ∀ (c : ℤ) (d : Fin 8),
    (fun b : ℤ => if 2 ≤ b / 10 ∧ b / 10 < 8 ∧ 2 ≤ b % 10 ∧ b % 10 < 8
      then some (0 : Fin 8) else none) c = some d →
    (((c + nshift 10 d) % 10 : ℤ) : ℚ) < ((c % 10 : ℤ) : ℚ) := by
  intro c d hcd
  by_cases hc : 2 ≤ c / 10 ∧ c / 10 < 8 ∧ 2 ≤ c % 10 ∧ c % 10 < 8
  · simp only [if_pos hc] at hcd
    obtain rfl : (0 : Fin 8) = d := Option.some_injective _ hcd
    rw [show nshift 10 (0 : Fin 8) = -1 by decide]
    have : (c + -1) % 10 < c % 10 := by omega
    exact_mod_cast this
  · simp only [if_neg hc] at hcd
    exact absurd hcd (by simp)

/-- The ramp receiver field is supported on the interior. -/
theorem rampR_supp : ∀ c : ℤ,
    (fun b : ℤ => if 2 ≤ b / 10 ∧ b / 10 < 8 ∧ 2 ≤ b % 10 ∧ b % 10 < 8
      then some (0 : Fin 8) else none) c ≠ none →
    InRect 10 2 8 2 8 c := by
  intro c hc
  by_cases h : 2 ≤ c / 10 ∧ c / 10 < 8 ∧ 2 ≤ c % 10 ∧ c % 10 < 8
  · exact ⟨(c / 10).toNat, (c % 10).toNat, by omega, by omega, by omega,
      by omega, by push_cast; omega⟩
  · simp only [if_neg h] at hc
    exact absurd rfl hc

set_option maxRecDepth 4000 in
set_option maxHeartbeats 4000000 in
/-- The reach counts on the ramp: a cell in rows 2–7 and columns 1–7 is
reached by the `8 - x` cells to its right in the same row (itself
included); every other cell only reaches itself. -/
theorem ramp_count : ∀ c, c ∈ gridCells 10 10 →
    (gridCells 10 10).countP (fun a => reaches 10
      (fun b : ℤ => if 2 ≤ b / 10 ∧ b / 10 < 8 ∧ 2 ≤ b % 10 ∧ b % 10 < 8
        then some (0 : Fin 8) else none)
      (10 * 10) a c) =
    (if 2 ≤ c / 10 ∧ c / 10 < 8 ∧ 1 ≤ c % 10 ∧ c % 10 < 8
      then (8 - c % 10).toNat else 1) := by decide

/-- The ordering stage succeeds on the ramp receiver field. -/
theorem ramp_order : ∃ stk lvls,
    generateOrder 10 10
      (fun b : ℤ => if 2 ≤ b / 10 ∧ b / 10 < 8 ∧ 2 ≤ b % 10 ∧ b % 10 < 8
        then some (0 : Fin 8) else none)
      (computeDonors 10 10
        (fun b : ℤ => if 2 ≤ b / 10 ∧ b / 10 < 8 ∧ 2 ≤ b % 10 ∧ b % 10 < 8
          then some (0 : Fin 8) else none) (fun _ => 0) (fun _ => 0)).1
      (computeDonors 10 10
        (fun b : ℤ => if 2 ≤ b / 10 ∧ b / 10 < 8 ∧ 2 ≤ b % 10 ∧ b % 10 < 8
          then some (0 : Fin 8) else none) (fun _ => 0) (fun _ => 0)).2 =
      some (stk, lvls) := by
  obtain ⟨e, hne, hempty, hfuel⟩ := @order_exists_e 10 10
    (fun b : ℤ => if 2 ≤ b / 10 ∧ b / 10 < 8 ∧ 2 ≤ b % 10 ∧ b % 10 < 8
      then some (0 : Fin 8) else none)
    (computeDonors 10 10
      (fun b : ℤ => if 2 ≤ b / 10 ∧ b / 10 < 8 ∧ 2 ≤ b % 10 ∧ b % 10 < 8
        then some (0 : Fin 8) else none) (fun _ => 0) (fun _ => 0)).1
    (computeDonors 10 10
      (fun b : ℤ => if 2 ≤ b / 10 ∧ b / 10 < 8 ∧ 2 ≤ b % 10 ∧ b % 10 < 8
        then some (0 : Fin 8) else none) (fun _ => 0) (fun _ => 0)).2
    (fun a : ℤ => ((a % 10 : ℤ) : ℚ)) (by norm_num) rampR_desc rampR_supp
    (computeDonors_nd 10 10 _ _ _) (computeDonors_dn 10 10 _ _ _)
  exact ⟨_, _, generateOrder_run hne hempty hfuel⟩

/-- The accumulation values on the ramp, for any order returned by
`GenerateOrder`. -/
theorem ramp_accum : ∀ (stk : List ℤ) (lvls : List ℕ),
    generateOrder 10 10
      (fun b : ℤ => if 2 ≤ b / 10 ∧ b / 10 < 8 ∧ 2 ≤ b % 10 ∧ b % 10 < 8
        then some (0 : Fin 8) else none)
      (computeDonors 10 10
        (fun b : ℤ => if 2 ≤ b / 10 ∧ b / 10 < 8 ∧ 2 ≤ b % 10 ∧ b % 10 < 8
          then some (0 : Fin 8) else none) (fun _ => 0) (fun _ => 0)).1
      (computeDonors 10 10
        (fun b : ℤ => if 2 ≤ b / 10 ∧ b / 10 < 8 ∧ 2 ≤ b % 10 ∧ b % 10 < 8
          then some (0 : Fin 8) else none) (fun _ => 0) (fun _ => 0)).2 =
      some (stk, lvls) →
    ∀ c, c ∈ gridCells 10 10 →
      computeFlowAcc 10
        (fun b : ℤ => if 2 ≤ b / 10 ∧ b / 10 < 8 ∧ 2 ≤ b % 10 ∧ b % 10 < 8
          then some (0 : Fin 8) else none) stk lvls c =
      cell_area * ((if 2 ≤ c / 10 ∧ c / 10 < 8 ∧ 1 ≤ c % 10 ∧ c % 10 < 8
        then (8 - c % 10).toNat else 1 : ℕ) : ℚ) := by
  intro stk lvls hord c hc
  rw [@flowAcc_master 10 10
    (fun b : ℤ => if 2 ≤ b / 10 ∧ b / 10 < 8 ∧ 2 ≤ b % 10 ∧ b % 10 < 8
      then some (0 : Fin 8) else none)
    (computeDonors 10 10
      (fun b : ℤ => if 2 ≤ b / 10 ∧ b / 10 < 8 ∧ 2 ≤ b % 10 ∧ b % 10 < 8
        then some (0 : Fin 8) else none) (fun _ => 0) (fun _ => 0)).1
    (computeDonors 10 10
      (fun b : ℤ => if 2 ≤ b / 10 ∧ b / 10 < 8 ∧ 2 ≤ b % 10 ∧ b % 10 < 8
        then some (0 : Fin 8) else none) (fun _ => 0) (fun _ => 0)).2
    (fun a : ℤ => ((a % 10 : ℤ) : ℚ)) (by norm_num) rampR_desc rampR_supp
    (computeDonors_nd 10 10 _ _ _) (computeDonors_dn 10 10 _ _ _)
    stk lvls hord c hc]
  rw [ramp_count c hc]

/-- **C8 (amended).** On the 10×10 linear ramp `h[y,x] = x`, after the
Receivers stage: every interior cell (rows 2–7, columns 2–7) gets receiver
direction 0 (the left neighbour), and every other cell — including the
non-halo ring — keeps `NO_FLOW`.  After the Accumulation stage, `accum`
for a cell in rows 2–7 and column `x` with `1 ≤ x ≤ 7` equals
`cell_area · (8 − x)` (flow drains leftward, so accumulation grows toward
the low side), and `accum` is `cell_area` everywhere else. -/
theorem C8_linear_ramp :
    (∀ c, c ∈ cellsRect 10 2 8 2 8 →
      computeReceivers 10 10 (fun a => ((a % 10 : ℤ) : ℚ)) (fun _ => none) c
        = some 0) ∧
    (∀ c, c ∉ cellsRect 10 2 8 2 8 →
      computeReceivers 10 10 (fun a => ((a % 10 : ℤ) : ℚ)) (fun _ => none) c
        = none) ∧
    (∃ stk lvls,
      generateOrder 10 10
        (computeReceivers 10 10 (fun a => ((a % 10 : ℤ) : ℚ)) (fun _ => none))
        (computeDonors 10 10
          (computeReceivers 10 10 (fun a => ((a % 10 : ℤ) : ℚ))
            (fun _ => none)) (fun _ => 0) (fun _ => 0)).1
        (computeDonors 10 10
          (computeReceivers 10 10 (fun a => ((a % 10 : ℤ) : ℚ))
            (fun _ => none)) (fun _ => 0) (fun _ => 0)).2 = some (stk, lvls) ∧
      ∀ c, c ∈ gridCells 10 10 →
        computeFlowAcc 10
          (computeReceivers 10 10 (fun a => ((a % 10 : ℤ) : ℚ))
            (fun _ => none)) stk lvls c =
          cell_area * ((if 2 ≤ c / 10 ∧ c / 10 < 8 ∧ 1 ≤ c % 10 ∧ c % 10 < 8
            then (8 - c % 10).toNat else 1 : ℕ) : ℚ)) := by
  refine ⟨?_, ?_, ?_⟩
  · intro c hc
    simp only [computeReceivers_ramp]
    rw [if_pos hc]
  · intro c hc
    simp only [computeReceivers_ramp]
    rw [if_neg hc]
  · simp only [computeReceivers_ramp, ramp_recv_arith]
    obtain ⟨stk, lvls, hord⟩ := ramp_order
    exact ⟨stk, lvls, hord, fun c hc => ramp_accum stk lvls hord c hc⟩

/-- Counterexample for C8 as stated: the spec's table `accum = A_cell · x`
is reversed.  At cell 21 (row 2, column 1) the spec predicts
`cell_area · 1`, but the code computes `cell_area · 7` — the seven cells
of columns 1–7 in row 2 all drain into it. -/
theorem C8_counterexample :
    ¬ (∀ stk lvls,
        generateOrder 10 10
          (computeReceivers 10 10 (fun a => ((a % 10 : ℤ) : ℚ))
            (fun _ => none))
          (computeDonors 10 10
            (computeReceivers 10 10 (fun a => ((a % 10 : ℤ) : ℚ))
              (fun _ => none)) (fun _ => 0) (fun _ => 0)).1
          (computeDonors 10 10
            (computeReceivers 10 10 (fun a => ((a % 10 : ℤ) : ℚ))
              (fun _ => none)) (fun _ => 0) (fun _ => 0)).2 =
          some (stk, lvls) →
        computeFlowAcc 10
          (computeReceivers 10 10 (fun a => ((a % 10 : ℤ) : ℚ))
            (fun _ => none)) stk lvls 21 = cell_area * 1) := by
  intro hcl
  simp only [computeReceivers_ramp, ramp_recv_arith] at hcl
  obtain ⟨stk, lvls, hord⟩ := ramp_order
  have hacc := ramp_accum stk lvls hord 21 (by decide)
  have hcl21 := hcl stk lvls hord
  rw [hacc] at hcl21
  norm_num [cell_area] at hcl21
  omega

/-! ## Claim C9 -/

/-- `Erode` never touches a cell whose receiver is `NO_FLOW`. -/
theorem erode_none_cell (W : ℕ) (powm : ℚ → ℚ) (nfuel : ℕ)
    (recv : ℤ → Option (Fin 8)) {c : ℤ} (hc : recv c = none) :
    ∀ (accum : ℤ → ℚ) (stk : List ℤ) (lvls : List ℕ) (h : ℤ → ℚ),
      erode W powm nfuel recv accum stk lvls h c = h c := by
  intro accum stk lvls h
  have hcell : ∀ (h : ℤ → ℚ) (u : ℤ),
      erodeCell W powm nfuel recv accum h u c = h c := by
    intro h u
    cases hu : recv u with
    | none => simp only [erodeCell, hu]
    | some d =>
      simp only [erodeCell, hu]
      have hne : c ≠ u := by
        intro heq
        rw [heq, hu] at hc
        exact Option.noConfusion hc
      exact Function.update_noteq hne _ _
  have hinner : ∀ (l : List ℤ) (h : ℤ → ℚ),
      (l.foldl (fun h u => erodeCell W powm nfuel recv accum h u) h) c =
        h c := by
    intro l
    induction l with
    | nil => intro h; rfl
    | cons u l ih2 => intro h; rw [List.foldl_cons, ih2, hcell]
  unfold erode
  generalize List.range (lvls.length - 1) = ls
  induction ls generalizing h with
  | nil => rfl
  | cons li ls ih => rw [List.foldl_cons]; exact (ih _).trans (hinner _ h)

/-- One pipeline step preserves the two-ring invariant: cells outside the
interior keep elevation 0 and receiver `NO_FLOW`. -/
theorem ringInv_doStep (W H : ℕ) (powm : ℚ → ℚ) (nfuel : ℕ) (s : FState)
    (hinv : ∀ c, ¬ InRect W 2 (H - 2) 2 (W - 2) c →
      s.h c = 0 ∧ s.recv c = none) :
    ∀ c, ¬ InRect W 2 (H - 2) 2 (W - 2) c →
      (doStep W H powm nfuel s).h c = 0 ∧
      (doStep W H powm nfuel s).recv c = none := by
  intro c hc
  have hrecv1 : computeReceivers W H s.h s.recv c = none := by
    rw [computeReceivers_eq, if_neg (fun hm => hc (mem_cellsRect.1 hm))]
    exact (hinv c hc).2
  have hup : addUplift W H s.h c = 0 := by
    rw [addUplift_eq, if_neg (fun hm => hc (mem_cellsRect.1 hm))]
    exact (hinv c hc).1
  exact ⟨(erode_none_cell W powm nfuel _ hrecv1 _ _ _ _).trans hup, hrecv1⟩

/-- The two-ring invariant is preserved by any number of pipeline steps. -/
theorem ringInv_fold (W H : ℕ) (powm : ℚ → ℚ) (nfuel : ℕ) :
    ∀ (l : List ℤ) (s : FState),
      (∀ c, ¬ InRect W 2 (H - 2) 2 (W - 2) c →
        s.h c = 0 ∧ s.recv c = none) →
      ∀ c, ¬ InRect W 2 (H - 2) 2 (W - 2) c →
        (l.foldl (fun s _ => doStep W H powm nfuel s) s).h c = 0 ∧
        (l.foldl (fun s _ => doStep W H powm nfuel s) s).recv c = none := by
  intro l
  induction l with
  | nil => intro s hs c hc; exact hs c hc
  | cons a l ih =>
    intro s hs c hc
    rw [List.foldl_cons]
    exact ih (doStep W H powm nfuel s)
      (ringInv_doStep W H powm nfuel s hs) c hc

/-- **C9.** If a state has the two outermost rings at elevation 0 with
receiver `NO_FLOW` (as the initialisation guarantees), then: after
`ComputeReceivers` those cells still have `NO_FLOW` (the scan never writes
them); after `AddUplift` their elevation is still 0 (the uplift region
excludes them); after `Erode` their elevation is still 0 (cells with
`NO_FLOW` are skipped); the invariant holds again after every complete
step of the run loop; and the seed level of the Ordering stage is
non-empty — cell `(1,1)` always seeds it. -/
theorem C9_ring_invariant (W H : ℕ) (powm : ℚ → ℚ) (nfuel : ℕ)
    (hW : 4 ≤ W) (hH : 4 ≤ H) (s : FState)
    (hinv : ∀ c, ¬ InRect W 2 (H - 2) 2 (W - 2) c →
      s.h c = 0 ∧ s.recv c = none) :
    (∀ c, ¬ InRect W 2 (H - 2) 2 (W - 2) c →
      computeReceivers W H s.h s.recv c = none ∧
      addUplift W H s.h c = 0 ∧
      ∀ (accum : ℤ → ℚ) (stk : List ℤ) (lvls : List ℕ),
        erode W powm nfuel (computeReceivers W H s.h s.recv) accum stk lvls
          (addUplift W H s.h) c = 0) ∧
    (∀ (nstep : ℤ) (c : ℤ), ¬ InRect W 2 (H - 2) 2 (W - 2) c →
      (runLoop W H powm nfuel nstep s).h c = 0 ∧
      (runLoop W H powm nfuel nstep s).recv c = none) ∧
    seedList W H (computeReceivers W H s.h s.recv) ≠ [] := by
  have hrecvN : ∀ c, ¬ InRect W 2 (H - 2) 2 (W - 2) c →
      computeReceivers W H s.h s.recv c = none := by
    intro c hc
    rw [computeReceivers_eq, if_neg (fun hm => hc (mem_cellsRect.1 hm))]
    exact (hinv c hc).2
  have hupN : ∀ c, ¬ InRect W 2 (H - 2) 2 (W - 2) c →
      addUplift W H s.h c = 0 := by
    intro c hc
    rw [addUplift_eq, if_neg (fun hm => hc (mem_cellsRect.1 hm))]
    exact (hinv c hc).1
  refine ⟨?_, ?_, ?_⟩
  · intro c hc
    exact ⟨hrecvN c hc, hupN c hc, fun accum stk lvls =>
      (erode_none_cell W powm nfuel _ (hrecvN c hc) accum stk lvls _).trans
        (hupN c hc)⟩
  · intro nstep c hc
    exact ringInv_fold W H powm nfuel (stepsList nstep) s hinv c hc
  · -- cell (1,1) is a frame cell outside the interior, hence a seed
    have hni : ¬ InRect W 2 (H - 2) 2 (W - 2) ((1 * W + 1 : ℕ) : ℤ) := by
      rintro ⟨y, x, hy0, hy1, hx0, hx1, heq⟩
      obtain ⟨h1, h2⟩ := cell_index_inj (by omega) (by omega) heq.symm
      omega
    have hmem : ((1 * W + 1 : ℕ) : ℤ) ∈ seedList W H
        (computeReceivers W H s.h s.recv) := by
      apply List.mem_filter.2
      refine ⟨mem_cellsRect.2 ⟨1, 1, le_rfl, by omega, le_rfl, by omega,
        rfl⟩, ?_⟩
      rw [hrecvN _ hni]
      rfl
    exact List.ne_nil_of_mem hmem

/-- Witness for C9 at the flat zero 5×5 state. -/
theorem C9_ring_invariant_witness :
    (∀ c, ¬ InRect 5 2 3 2 3 c →
      computeReceivers 5 5 (fun _ => 0) (fun _ => none) c = none ∧
      addUplift 5 5 (fun _ => 0) c = 0 ∧
      ∀ (accum : ℤ → ℚ) (stk : List ℤ) (lvls : List ℕ),
        erode 5 (fun q => q) 1 (computeReceivers 5 5 (fun _ => 0)
          (fun _ => none)) accum stk lvls (addUplift 5 5 (fun _ => 0)) c
          = 0) ∧
    (∀ (nstep : ℤ) (c : ℤ), ¬ InRect 5 2 3 2 3 c →
      (runLoop 5 5 (fun q => q) 1 nstep
        ⟨fun _ => 0, fun _ => 0, fun _ => none, fun _ => 0, fun _ => 0⟩).h c
        = 0 ∧
      (runLoop 5 5 (fun q => q) 1 nstep
        ⟨fun _ => 0, fun _ => 0, fun _ => none, fun _ => 0, fun _ => 0⟩).recv
        c = none) ∧
    seedList 5 5 (computeReceivers 5 5 (fun _ => 0) (fun _ => none)) ≠ [] :=
  C9_ring_invariant 5 5 (fun q => q) 1 (by norm_num) (by norm_num)
    ⟨fun _ => 0, fun _ => 0, fun _ => none, fun _ => 0, fun _ => 0⟩
    (fun _ _ => ⟨rfl, rfl⟩)

end FastScape
